import Mathlib

/-!
Verification of the SQL-to-Drizzle schema converter: a shallow embedding of
the PostgreSQL DDL parser (internal/parser/postgres.go) and the Drizzle
schema generator (internal/generator/postgres.go), with theorems settling
the specification claims about statement splitting, table extraction,
lenient-mode error handling, type mapping, dependency sorting and
deterministic code emission.

Go machine integers are modelled as `Int` with explicit range checks where
the code's behaviour depends on them (`strconv.Atoi`), Go slices as `List`,
Go string byte scans as scans over `List Char` (all inputs of interest are
ASCII, where Go's byte-wise operations and the character-wise model agree),
and Go's `(value, error)` returns as `Except String`.
-/

namespace Drizzle

/-- Column record, from parser/types.go (`Column`). `Precision` exists in the
Go struct but is never written by the parser; kept for field fidelity. -/
structure Column where
  Name : String
  «Type» : String
  Length : Option Int := none
  Precision : Option Int := none
  Scale : Option Int := none
  NotNull : Bool := false
  Unique : Bool := false
  DefaultValue : Option String := none
  AutoIncrement : Bool := false
  Comment : Option String := none
deriving DecidableEq

/-- Foreign-key record, from parser/types.go (`ForeignKey`). -/
structure ForeignKey where
  Name : String
  Columns : List String
  ReferencedTable : String
  ReferencedColumns : List String
  OnDelete : Option String := none
  OnUpdate : Option String := none
deriving DecidableEq

/-- Index record, from parser/types.go (`Index`). -/
structure Index where
  Name : String
  Columns : List String
  Unique : Bool
  «Type» : Option String := none
deriving DecidableEq

/-- Constraint record, from parser/types.go (`Constraint`). -/
structure Constraint where
  Name : String
  «Type» : String
  Columns : List String
  Expression : Option String := none
deriving DecidableEq

/-- Table record, from parser/types.go (`Table`). -/
structure Table where
  Name : String
  Columns : List Column := []
  PrimaryKey : List String := []
  ForeignKeys : List ForeignKey := []
  Indexes : List Index := []
  Constraints : List Constraint := []
deriving DecidableEq

/-- Parse options, from parser/types.go (`ParseOptions`). The dialect field
is omitted: only the PostgreSQL implementation exists and it never reads it. -/
structure ParseOptions where
  StrictMode : Bool := false
  IgnoreUnsupported : Bool := true
deriving DecidableEq

/-- Parse result, from parser/types.go (`ParseResult`); Go `error` values are
modelled by their message strings. -/
structure ParseResult where
  Tables : List Table
  Errors : List String
deriving DecidableEq

/-- Generator options, from generator/types.go (`GeneratorOptions`).
`NamingCase` is a string type in Go; kept as `String`. `IndentSize` is a Nat:
`strings.Repeat` panics on negative counts, so only naturals are meaningful. -/
structure GeneratorOptions where
  TableNameCase : String
  ColumnNameCase : String
  IncludeComments : Bool
  ExportPrefix : String
  IndentSize : Nat
deriving DecidableEq

/-- Drizzle type descriptor, from generator/types.go (`DrizzleType`). -/
structure DrizzleType where
  Function : String
  Args : List String
  Options : List String
deriving DecidableEq

/-- Generated table record, from generator/types.go (`GeneratedTable`). -/
structure GeneratedTable where
  OriginalName : String
  ExportName : String
  Definition : String
deriving DecidableEq

/-- Generated schema record, from generator/types.go (`GeneratedSchema`). -/
structure GeneratedSchema where
  Imports : List String
  Tables : List GeneratedTable
  Content : String
deriving DecidableEq

/-! ### Small string helpers shared by the embedding -/

/-- The single-quote character (written by code point to keep source plain). -/
def squote : Char := Char.ofNat 39

/-- The double-quote character. -/
def dquote : Char := Char.ofNat 34

/-- The backslash character. -/
def bslash : Char := Char.ofNat 92

/-- Model of Go `strings.ToUpper` (ASCII range, as exercised by the code). -/
def toUpperStr (s : String) : String := String.mk (s.data.map Char.toUpper)

/-- Bool-valued contiguous-sublist test on char lists. -/
def infixCheck (needle : List Char) : List Char → Bool
  | [] => needle.isEmpty
  | c :: rest => needle.isPrefixOf (c :: rest) || infixCheck needle rest

/-- Model of Go `strings.Contains` via list infix testing. -/
def containsSub (s sub : String) : Bool := infixCheck sub.data s.data

/-- Model of Go `strconv.Atoi`: optional sign, one or more ASCII digits, and
the value must fit in a 64-bit `int`; returns `none` exactly when Go returns
a non-nil error. -/
def goAtoi (s : String) : Option Int :=
  let core : List Char → Bool × List Char := fun cs =>
    match cs with
    | '-' :: rest => (true, rest)
    | '+' :: rest => (false, rest)
    | rest => (false, rest)
  let (neg, ds) := core s.data
  if ds ≠ [] ∧ ds.all Char.isDigit then
    let v : Nat := ds.foldl (fun a c => a * 10 + (c.toNat - 48)) 0
    let i : Int := if neg then -(v : Int) else (v : Int)
    if -(2 ^ 63) ≤ i ∧ i ≤ 2 ^ 63 - 1 then some i else none
  else none

/-- True when Go `strconv.Atoi` succeeds on `s`. -/
def goAtoiOk (s : String) : Bool := (goAtoi s).isSome

/-- Go `strings.HasPrefix`. -/
def hasPrefixStr (s pre : String) : Bool := pre.data.isPrefixOf s.data

/-- Go `strings.HasSuffix`. -/
def hasSuffixStr (s suf : String) : Bool := suf.data.isSuffixOf s.data

/-! ### Type mapper (generator/postgres.go, `MapColumnType`) -/

/-- Quote a column name as the first Drizzle constructor argument, as
`fmt.Sprintf("'%s'", column.Name)` does. -/
def qname (n : String) : String := String.mk [squote] ++ n ++ String.mk [squote]

/-- The `{ mode: 'number' }` argument literal used for bigint/bigserial. -/
def modeNumberArg : String := "\x7b mode: \x27number\x27 \x7d"

/-- The `switch strings.ToUpper(column.«Type»)` of `MapColumnType`: constructor
function name and argument list for each recognized SQL type, with the
documented fallback to `text` for unknown names. -/
def mapBase (column : Column) : String × List String :=
  let u := toUpperStr column.«Type»
  if u = "BIGSERIAL" then ("bigserial", [qname column.Name, modeNumberArg])
  else if u = "SERIAL" then ("serial", [qname column.Name])
  else if u = "SMALLSERIAL" then ("serial", [qname column.Name])
  else if u = "BIGINT" then ("bigint", [qname column.Name, modeNumberArg])
  else if u = "INTEGER" ∨ u = "INT" ∨ u = "INT4" then ("integer", [qname column.Name])
  else if u = "SMALLINT" ∨ u = "INT2" then ("smallint", [qname column.Name])
  else if u = "VARCHAR" then
    match column.Length with
    | some len => ("varchar", [qname column.Name, "\x7b length: " ++ toString len ++ " \x7d"])
    | none => ("varchar", [qname column.Name])
  else if u = "TEXT" then ("text", [qname column.Name])
  else if u = "BOOLEAN" ∨ u = "BOOL" then ("boolean", [qname column.Name])
  else if u = "TIMESTAMP WITH TIME ZONE" ∨ u = "TIMESTAMPTZ" then
    ("timestamp", [qname column.Name, "\x7b withTimezone: true \x7d"])
  else if u = "TIMESTAMP" then ("timestamp", [qname column.Name])
  else if u = "DATE" then ("date", [qname column.Name])
  else if u = "TIME" then ("time", [qname column.Name])
  else if u = "DECIMAL" ∨ u = "NUMERIC" then
    match column.Length, column.Scale with
    | some len, some sc =>
        ("decimal", [qname column.Name,
          "\x7b precision: " ++ toString len ++ ", scale: " ++ toString sc ++ " \x7d"])
    | some len, none =>
        ("decimal", [qname column.Name, "\x7b precision: " ++ toString len ++ " \x7d"])
    | none, _ => ("decimal", [qname column.Name])
  else if u = "REAL" ∨ u = "FLOAT4" then ("real", [qname column.Name])
  else if u = "DOUBLE PRECISION" ∨ u = "DOUBLE" ∨ u = "FLOAT8" then
    ("doublePrecision", [qname column.Name])
  else if u = "UUID" then ("uuid", [qname column.Name])
  else if u = "JSON" then ("json", [qname column.Name])
  else if u = "JSONB" then ("jsonb", [qname column.Name])
  else ("text", [qname column.Name])

/-- The default-value handling block at the end of `MapColumnType`: the
options appended for `column.DefaultValue`, in the order the Go switch
produces them. -/
def defaultOpts (column : Column) : List String :=
  match column.DefaultValue with
  | none => []
  | some dv =>
    let u := toUpperStr dv
    if u = "CURRENT_TIMESTAMP" ∨ u = "NOW()" then
      if containsSub (toUpperStr column.«Type») "TIMESTAMP" then ["defaultNow()"] else []
    else if u = "TRUE" then ["default(true)"]
    else if u = "FALSE" then ["default(false)"]
    else if hasPrefixStr dv (String.mk [squote]) ∧ hasSuffixStr dv (String.mk [squote]) then
      ["default(" ++ dv ++ ")"]
    else if goAtoiOk dv then
      ["default(" ++ dv ++ ")"]
    else
      ["default(\x27" ++ dv ++ "\x27)"]

/-- Constraint options appended before default handling: `notNull()` then
`unique()`. -/
def constraintOpts (column : Column) : List String :=
  (if column.NotNull then ["notNull()"] else []) ++
    (if column.Unique then ["unique()"] else [])

/-- `MapColumnType` from generator/postgres.go: every Go path returns a
descriptor with a nil error, modelled as `Except.ok`. -/
def MapColumnType (column : Column) : Except String DrizzleType :=
  let base := mapBase column
  Except.ok
    { Function := base.1
      Args := base.2
      Options := constraintOpts column ++ defaultOpts column }

/-- The exact labels of the `switch strings.ToUpper(column.«Type»)` statement;
a type is "recognized" iff its upper-cased name is in this list. -/
def knownTypeNames : List String :=
  ["BIGSERIAL", "SERIAL", "SMALLSERIAL", "BIGINT", "INTEGER", "INT", "INT4",
   "SMALLINT", "INT2", "VARCHAR", "TEXT", "BOOLEAN", "BOOL",
   "TIMESTAMP WITH TIME ZONE", "TIMESTAMPTZ", "TIMESTAMP", "DATE", "TIME",
   "DECIMAL", "NUMERIC", "REAL", "FLOAT4", "DOUBLE PRECISION", "DOUBLE",
   "FLOAT8", "UUID", "JSON", "JSONB"]

/-- Default-value classification written from the amended wording of the
spec's claim: a time-now-like expression yields the current-timestamp
modifier exactly when the (upper-cased) type name contains "TIMESTAMP" and
nothing otherwise; boolean literals yield boolean default modifiers; a
single-quoted literal is kept verbatim; a literal accepted by integer
parsing (`strconv.Atoi`) is unquoted; everything else is defensively
quoted. -/
def classifyDefaultSpec (typeName dv : String) : List String :=
  if toUpperStr dv = "CURRENT_TIMESTAMP" ∨ toUpperStr dv = "NOW()" then
    if containsSub (toUpperStr typeName) "TIMESTAMP" then ["defaultNow()"] else []
  else if toUpperStr dv = "TRUE" then ["default(true)"]
  else if toUpperStr dv = "FALSE" then ["default(false)"]
  else if hasPrefixStr dv (String.mk [squote]) ∧ hasSuffixStr dv (String.mk [squote]) then
    ["default(" ++ dv ++ ")"]
  else if goAtoiOk dv then ["default(" ++ dv ++ ")"]
  else ["default(\x27" ++ dv ++ "\x27)"]

/-- The column `price DECIMAL DEFAULT 3.14` used to refute claim C3. -/
def c3col : Column := { Name := "price", «Type» := "DECIMAL", DefaultValue := some "3.14" }

/-- C3 counterexample: for the column `price DECIMAL DEFAULT 3.14`, whose
default value `3.14` is a syntactically numeric literal, `MapColumnType`
produces the quoted string default `default('3.14')` and not the unquoted
numeric default `default(3.14)` the claim requires (Go `strconv.Atoi`
accepts only integers). -/
theorem mapColumnType_default_numeric_cex :
    ∃ dt, MapColumnType c3col = Except.ok dt ∧
      dt.Options = ["default(\x273.14\x27)"] ∧ "default(3.14)" ∉ dt.Options := by
  refine ⟨_, rfl, ?_, ?_⟩ <;> decide

/-- C3 amended: for every column carrying a default-value expression, the
options emitted by `MapColumnType` are the not-null/unique modifiers followed
by the classification of the default, where the classification sends a
time-now-like expression on a type whose name contains "TIMESTAMP" to the
current-timestamp modifier (and to no modifier on any other type), boolean
literals to boolean default modifiers, single-quoted literals to themselves,
integer literals (as accepted by `strconv.Atoi`) to unquoted defaults, and
every other expression — including non-integer numeric literals — to a
defensively quoted string default. -/
theorem mapColumnType_default_classification (column : Column) (d : String)
    (h : column.DefaultValue = some d) :
    ∃ dt, MapColumnType column = Except.ok dt ∧
      dt.Options = constraintOpts column ++ classifyDefaultSpec column.«Type» d := by
  refine ⟨_, rfl, ?_⟩
  simp only [defaultOpts, classifyDefaultSpec, h]

/-- The column `created TIMESTAMP DEFAULT NOW() NOT NULL` used to witness the
amended C3 theorem. -/
def c3wcol : Column :=
  { Name := "created", «Type» := "TIMESTAMP", NotNull := true, DefaultValue := some "NOW()" }

/-- Witness for the amended C3 theorem at a concrete column. -/
theorem mapColumnType_default_classification_witness :
    c3wcol.DefaultValue = some "NOW()" ∧
      ∃ dt, MapColumnType c3wcol = Except.ok dt ∧
        dt.Options = constraintOpts c3wcol ++ classifyDefaultSpec c3wcol.«Type» "NOW()" :=
  ⟨rfl, mapColumnType_default_classification c3wcol "NOW()" rfl⟩

/-- C4: `MapColumnType` is total — it returns a descriptor with a nil error
on every column — and when the upper-cased type name is not one of the
switch labels it falls back to the `text` constructor. -/
theorem mapColumnType_total_fallback (column : Column) :
    (∃ dt, MapColumnType column = Except.ok dt) ∧
      (toUpperStr column.«Type» ∉ knownTypeNames →
        ∃ dt, MapColumnType column = Except.ok dt ∧ dt.Function = "text") := by
  refine ⟨⟨_, rfl⟩, fun h => ⟨_, rfl, ?_⟩⟩
  simp only [knownTypeNames, List.mem_cons, List.not_mem_nil, or_false, not_or] at h
  obtain ⟨h1, h2, h3, h4, h5, h6, h7, h8, h9, h10, h11, h12, h13, h14,
    h15, h16, h17, h18, h19, h20, h21, h22, h23, h24, h25, h26, h27, h28⟩ := h
  simp [mapBase, h1, h2, h3, h4, h5, h6, h7, h8, h9, h10, h11, h12, h13, h14,
    h15, h16, h17, h18, h19, h20, h21, h22, h23, h24, h25, h26, h27, h28]

/-- The column `shape GEOMETRY` (unrecognized type) used to witness C4. -/
def c4col : Column := { Name := "shape", «Type» := "GEOMETRY" }

/-- Witness for C4 at a column of unrecognized type `GEOMETRY`. -/
theorem mapColumnType_total_fallback_witness :
    toUpperStr c4col.«Type» ∉ knownTypeNames ∧
      ∃ dt, MapColumnType c4col = Except.ok dt ∧ dt.Function = "text" :=
  ⟨by decide, (mapColumnType_total_fallback c4col).2 (by decide)⟩

/-! ### Dependency sorter (generator/postgres.go, `sortTablesByDependencies`)

The Go function builds `tableMap` (a name-keyed map, later entries
overwriting earlier ones), then runs a depth-first visit with `visited` and
`visiting` boolean maps and an output slice `sorted`.  Boolean maps over
names are modelled by membership lists (`markTrue` inserts when absent,
`markFalse` removes, so membership coincides with the map holding `true`);
the unbounded Go recursion is given the explicit fuel
`tables.length + 1`, which the lemmas below show is never exhausted. -/

/-- The Go zero `Table` value, produced by indexing `tableMap` at a missing
key (never reached on the call paths, which are guarded by existence). -/
def emptyTable : Table := { Name := "" }

/-- Whether a table named `name` is in `tableMap` (`_, exists := tableMap[...]`). -/
def tableExists (tables : List Table) (name : String) : Bool :=
  tables.any (fun t => t.Name == name)

/-- `tableMap[name]`: the map is filled in order with later entries
overwriting earlier ones, so lookup finds the last table with the name, and
the zero value when absent. -/
def lookupTable (tables : List Table) (name : String) : Table :=
  ((tables.filter (fun t => t.Name == name)).getLast?).getD emptyTable

/-- The mutable state of the Go visit: the `visited` and `visiting` boolean
maps (as membership lists) and the output slice `sorted`. -/
structure VisitState where
  visited : List String
  visiting : List String
  sorted : List Table
deriving DecidableEq

/-- Set a name's entry to `true` in a boolean map modelled by a membership
list. -/
def markTrue (l : List String) (n : String) : List String :=
  if n ∈ l then l else n :: l

/-- Set a name's entry to `false`. -/
def markFalse (l : List String) (n : String) : List String :=
  l.filter (fun m => m ≠ n)

/-- The recursive closure `visit` of `sortTablesByDependencies`: return if
the name is already visited or in progress; otherwise mark it in progress,
visit every existing referenced table (the `for _, fk := range
table.ForeignKeys` loop, modelled by a fold), then move the name to visited
and append its table to the output. -/
def visit (tables : List Table) : Nat → VisitState → String → VisitState
  | 0, s, _ => s
  | fuel + 1, s, name =>
    if name ∈ s.visited ∨ name ∈ s.visiting then s
    else
      let t := lookupTable tables name
      let s2 := t.ForeignKeys.foldl
        (fun st fk =>
          if tableExists tables fk.ReferencedTable then visit tables fuel st fk.ReferencedTable
          else st)
        { s with visiting := markTrue s.visiting name }
      { visited := markTrue s2.visited name
        visiting := markFalse s2.visiting name
        sorted := s2.sorted ++ [t] }

/-- `sortTablesByDependencies`: visit every table of the input in order,
starting from empty maps and an empty output slice. -/
def sortTablesByDependencies (tables : List Table) : List Table :=
  (tables.foldl (fun s t => visit tables (tables.length + 1) s t.Name)
    ⟨[], [], []⟩).sorted

/-- The names of the tables in the input, in order. -/
def tableNames (tables : List Table) : List String := tables.map Table.Name

/-- Dependency edge between table names: `a` references `b` through some
foreign key of some table named `a`, and a table named `b` is present. -/
def EdgeP (tables : List Table) (a b : String) : Prop :=
  ∃ t ∈ tables, t.Name = a ∧
    ∃ fk ∈ t.ForeignKeys, fk.ReferencedTable = b ∧ tableExists tables b = true

/-- The foreign-key reference graph has no (nonempty) cycle. -/
def Acyclic (tables : List Table) : Prop :=
  ∀ a, ¬ Relation.TransGen (EdgeP tables) a a

/-- The ordering property claimed for the sorter's output: wherever a table
appears in the output, every table it references (and which exists in the
input set) appears strictly earlier. -/
def RefsPrecede (tables out : List Table) : Prop :=
  ∀ l₁ t l₂, out = l₁ ++ t :: l₂ →
    ∀ fk ∈ t.ForeignKeys, tableExists tables fk.ReferencedTable = true →
      fk.ReferencedTable ∈ l₁.map Table.Name

/-- Number of distinct input-table names not yet marked visited or visiting:
the termination measure showing the chosen fuel is never exhausted. -/
def unmarkedCount (tables : List Table) (s : VisitState) : Nat :=
  (((tables.map Table.Name).dedup).filter
    (fun n => decide (n ∉ s.visited ∧ n ∉ s.visiting))).length

/-! #### Membership helpers for the boolean-map model -/

theorem mem_markTrue {l : List String} {n m : String} :
    m ∈ markTrue l n ↔ m = n ∨ m ∈ l := by
  unfold markTrue
  split
  · constructor
    · exact Or.inr
    · rintro (rfl | h) <;> assumption
  · simp [List.mem_cons]

theorem mem_markFalse {l : List String} {n m : String} :
    m ∈ markFalse l n ↔ m ∈ l ∧ m ≠ n := by
  simp [markFalse, List.mem_filter]

theorem markFalse_of_not_mem {l : List String} {n : String} (h : n ∉ l) :
    markFalse l n = l := by
  apply List.filter_eq_self.mpr
  intro m hm
  simp only [decide_eq_true_eq]
  rintro rfl
  exact h hm

theorem tableExists_iff {tables : List Table} {n : String} :
    tableExists tables n = true ↔ n ∈ tables.map Table.Name := by
  unfold tableExists
  rw [List.any_eq_true]
  constructor
  · rintro ⟨t, ht, hbeq⟩
    exact List.mem_map.mpr ⟨t, ht, by simpa using hbeq⟩
  · intro hmem
    rcases List.mem_map.mp hmem with ⟨t, ht, hn⟩
    exact ⟨t, ht, by simpa using hn⟩

theorem lookupTable_spec {tables : List Table} {name : String}
    (h : tableExists tables name = true) :
    lookupTable tables name ∈ tables ∧ (lookupTable tables name).Name = name := by
  rcases List.mem_map.mp (tableExists_iff.mp h) with ⟨t, ht, hn⟩
  have htf : t ∈ tables.filter (fun u => u.Name == name) := by
    simp [List.mem_filter, ht, hn]
  unfold lookupTable
  cases hlast : (tables.filter (fun u => u.Name == name)).getLast? with
  | none =>
    rw [List.getLast?_eq_none_iff] at hlast
    rw [hlast] at htf
    cases htf
  | some u =>
    have hu : u ∈ tables.filter (fun u => u.Name == name) :=
      List.mem_of_getLast?_eq_some hlast
    rcases List.mem_filter.mp hu with ⟨humem, huname⟩
    refine ⟨humem, ?_⟩
    simpa using huname

theorem lookupTable_eq_self {tables : List Table} {t : Table}
    (hnd : (tables.map Table.Name).Nodup) (ht : t ∈ tables) :
    lookupTable tables t.Name = t := by
  have hex : tableExists tables t.Name = true :=
    tableExists_iff.mpr (List.mem_map_of_mem Table.Name ht)
  have hinj := List.inj_on_of_nodup_map hnd
  have h1 := lookupTable_spec hex
  exact hinj h1.1 ht h1.2

/-! #### Filter-length lemmas for the fuel measure -/

theorem filter_length_mono {α : Type} {p q : α → Bool}
    (h : ∀ x, p x = true → q x = true) :
    ∀ l : List α, (l.filter p).length ≤ (l.filter q).length := by
  intro l
  induction l with
  | nil => simp
  | cons x xs ih =>
    by_cases hq : q x = true
    · by_cases hp : p x = true
      · simpa [List.filter_cons, hp, hq] using Nat.succ_le_succ ih
      · simp only [List.filter_cons, Bool.not_eq_true] at hp ⊢
        rw [hp, hq]
        simpa using Nat.le_succ_of_le ih
    · have hp : p x = false := by
        cases hpx : p x
        · rfl
        · exact absurd (h x hpx) hq
      simp only [List.filter_cons, hp, Bool.false_eq_true, if_false]
      rw [eq_false_of_ne_true hq]
      simpa using ih

theorem filter_length_lt {α : Type} {p q : α → Bool}
    (h : ∀ x, p x = true → q x = true) {a : α}
    (haq : q a = true) (hap : p a = false) :
    ∀ l : List α, a ∈ l → (l.filter p).length < (l.filter q).length := by
  intro l
  induction l with
  | nil => intro hmem; cases hmem
  | cons x xs ih =>
    intro hmem
    rcases List.mem_cons.mp hmem with rfl | hmem
    · simp only [List.filter_cons, hap, Bool.false_eq_true, if_false, haq, if_true]
      exact Nat.lt_succ_of_le (filter_length_mono h xs)
    · by_cases hq : q x = true
      · by_cases hp : p x = true
        · simpa [List.filter_cons, hp, hq] using Nat.succ_lt_succ (ih hmem)
        · simp only [List.filter_cons, Bool.not_eq_true] at hp ⊢
          rw [hp, hq]
          simpa using Nat.lt_succ_of_lt (ih hmem)
      · have hp : p x = false := by
          cases hpx : p x
          · rfl
          · exact absurd (h x hpx) hq
        simp only [List.filter_cons, hp, Bool.false_eq_true, if_false]
        rw [eq_false_of_ne_true hq]
        simpa using ih hmem

/-- Marked names (visited or visiting) of `s` are contained in those of `s'`. -/
def MarksSub (s s' : VisitState) : Prop :=
  ∀ n, (n ∈ s.visited ∨ n ∈ s.visiting) → (n ∈ s'.visited ∨ n ∈ s'.visiting)

theorem unmarkedCount_le_of_marksSub (tables : List Table) {s s' : VisitState}
    (h : MarksSub s s') : unmarkedCount tables s' ≤ unmarkedCount tables s := by
  apply filter_length_mono
  intro x hx
  simp only [decide_eq_true_eq] at hx ⊢
  have hne : ¬(x ∈ s'.visited ∨ x ∈ s'.visiting) := by
    rintro (h1 | h2)
    · exact hx.1 h1
    · exact hx.2 h2
  have hns : ¬(x ∈ s.visited ∨ x ∈ s.visiting) := fun hm => hne (h x hm)
  exact ⟨fun hm => hns (Or.inl hm), fun hm => hns (Or.inr hm)⟩

theorem unmarkedCount_lt (tables : List Table) {s s' : VisitState}
    (h : MarksSub s s') {name : String}
    (hmem : name ∈ tables.map Table.Name)
    (h1 : name ∉ s.visited) (h2 : name ∉ s.visiting)
    (h3 : name ∈ s'.visited ∨ name ∈ s'.visiting) :
    unmarkedCount tables s' < unmarkedCount tables s := by
  apply filter_length_lt (a := name)
  · intro x hx
    simp only [decide_eq_true_eq] at hx ⊢
    have hne : ¬(x ∈ s'.visited ∨ x ∈ s'.visiting) := by
      rintro (ha | hb)
      · exact hx.1 ha
      · exact hx.2 hb
    have hns : ¬(x ∈ s.visited ∨ x ∈ s.visiting) := fun hm => hne (h x hm)
    exact ⟨fun hm => hns (Or.inl hm), fun hm => hns (Or.inr hm)⟩
  · simp [h1, h2]
  · rcases h3 with h3 | h3 <;> simp [h3]
  · exact List.mem_dedup.mpr hmem

/-- The foreign-key loop of `visit` as a named function (definitionally the
fold inlined in `visit`), to state loop lemmas. -/
def visitFold (tables : List Table) (fuel : Nat) (s : VisitState)
    (fks : List ForeignKey) : VisitState :=
  fks.foldl
    (fun st fk =>
      if tableExists tables fk.ReferencedTable then visit tables fuel st fk.ReferencedTable
      else st)
    s

theorem visit_succ (tables : List Table) (fuel : Nat) (s : VisitState) (name : String) :
    visit tables (fuel + 1) s name =
      if name ∈ s.visited ∨ name ∈ s.visiting then s
      else
        { visited := markTrue (visitFold tables fuel { s with visiting := markTrue s.visiting name }
            (lookupTable tables name).ForeignKeys).visited name
          visiting := markFalse (visitFold tables fuel { s with visiting := markTrue s.visiting name }
            (lookupTable tables name).ForeignKeys).visiting name
          sorted := (visitFold tables fuel { s with visiting := markTrue s.visiting name }
            (lookupTable tables name).ForeignKeys).sorted ++ [lookupTable tables name] } := by
  simp only [visit, visitFold]

theorem visitFold_cons (tables : List Table) (fuel : Nat) (s : VisitState)
    (fk : ForeignKey) (fks : List ForeignKey) :
    visitFold tables fuel s (fk :: fks) =
      visitFold tables fuel
        (if tableExists tables fk.ReferencedTable then visit tables fuel s fk.ReferencedTable
         else s) fks := rfl

/-- The data invariant of the visit state: visited names are exactly the
names of the output slice, output names are distinct, no in-progress name is
visited, and every output entry is the map entry of a present name. -/
def Inv (tables : List Table) (s : VisitState) : Prop :=
  (∀ n, n ∈ s.visited ↔ n ∈ s.sorted.map Table.Name) ∧
  (s.sorted.map Table.Name).Nodup ∧
  (∀ n ∈ s.visiting, n ∉ s.visited) ∧
  (∀ t ∈ s.sorted, tableExists tables t.Name = true ∧ t = lookupTable tables t.Name)

/-- What one `visit` call (or one run of the foreign-key loop) does to the
state, seen from outside: `visiting` is restored, `visited` grows, `sorted`
is extended, every newly visited name names a present table that was not in
progress, and the data invariant is preserved. -/
def StepConcl (tables : List Table) (s s' : VisitState) : Prop :=
  s'.visiting = s.visiting ∧
  (∀ n, n ∈ s.visited → n ∈ s'.visited) ∧
  (∃ ext, s'.sorted = s.sorted ++ ext) ∧
  (∀ n, n ∈ s'.visited →
    n ∈ s.visited ∨ (tableExists tables n = true ∧ n ∉ s.visiting)) ∧
  (Inv tables s → Inv tables s')

theorem stepConcl_refl (tables : List Table) (s : VisitState) : StepConcl tables s s :=
  ⟨rfl, fun _ h => h, ⟨[], by simp⟩, fun _ h => Or.inl h, id⟩

theorem stepConcl_trans {tables : List Table} {s s' s'' : VisitState}
    (h1 : StepConcl tables s s') (h2 : StepConcl tables s' s'') :
    StepConcl tables s s'' := by
  obtain ⟨a1, a2, a3, a4, a5⟩ := h1
  obtain ⟨b1, b2, b3, b4, b5⟩ := h2
  refine ⟨b1.trans a1, fun n h => b2 n (a2 n h), ?_, ?_, fun h => b5 (a5 h)⟩
  · obtain ⟨e1, he1⟩ := a3
    obtain ⟨e2, he2⟩ := b3
    exact ⟨e1 ++ e2, by rw [he2, he1, List.append_assoc]⟩
  · intro n h
    rcases b4 n h with h | ⟨hex, hng⟩
    · exact a4 n h
    · rw [a1] at hng
      exact Or.inr ⟨hex, hng⟩

theorem marksSub_of_step {tables : List Table} {s s' : VisitState}
    (h : StepConcl tables s s') : MarksSub s s' := by
  intro n hm
  rcases hm with hm | hm
  · exact Or.inl (h.2.1 n hm)
  · exact Or.inr (h.1 ▸ hm)

theorem visitFold_step (tables : List Table) (fuel : Nat)
    (ih : ∀ s name, tableExists tables name = true →
      StepConcl tables s (visit tables fuel s name)) :
    ∀ (fks : List ForeignKey) (s : VisitState),
      StepConcl tables s (visitFold tables fuel s fks) := by
  intro fks
  induction fks with
  | nil => intro s; exact stepConcl_refl tables s
  | cons fk fks ihl =>
    intro s
    rw [visitFold_cons]
    refine stepConcl_trans ?_ (ihl _)
    by_cases hex : tableExists tables fk.ReferencedTable = true
    · rw [if_pos hex]; exact ih s fk.ReferencedTable hex
    · rw [if_neg hex]; exact stepConcl_refl tables s

/-- Main step lemma for `visit`: it satisfies `StepConcl`, and with at least
one unit of fuel it leaves the visited name either visited or (if it was in
progress) untouched. -/
theorem visit_step (tables : List Table) :
    ∀ (fuel : Nat) (s : VisitState) (name : String), tableExists tables name = true →
      StepConcl tables s (visit tables fuel s name) ∧
        (1 ≤ fuel → name ∈ (visit tables fuel s name).visited ∨ name ∈ s.visiting) := by
  intro fuel
  induction fuel with
  | zero =>
    intro s name _
    exact ⟨stepConcl_refl tables s, fun h => absurd h (by omega)⟩
  | succ fuel ih =>
    intro s name hex
    by_cases hg : name ∈ s.visited ∨ name ∈ s.visiting
    · rw [visit_succ, if_pos hg]
      refine ⟨stepConcl_refl tables s, fun _ => ?_⟩
      exact hg
    · have hnv : name ∉ s.visited := fun h => hg (Or.inl h)
      have hng : name ∉ s.visiting := fun h => hg (Or.inr h)
      have htname : (lookupTable tables name).Name = name := (lookupTable_spec hex).2
      have htmem : lookupTable tables name ∈ tables := (lookupTable_spec hex).1
      obtain ⟨hf1, hf2, hf3, hf4, hf5⟩ :=
        visitFold_step tables fuel (fun s' n hx => (ih s' n hx).1)
          (lookupTable tables name).ForeignKeys
          { s with visiting := markTrue s.visiting name }
      rw [visit_succ, if_neg hg]
      have hs1v : markTrue s.visiting name = name :: s.visiting := by
        simp [markTrue, hng]
      -- name is not visited by the loop: any new visited name was not in
      -- progress, but name was put in progress before the loop
      have hnv2 : name ∉ (visitFold tables fuel { s with visiting := markTrue s.visiting name }
          (lookupTable tables name).ForeignKeys).visited := by
        intro hmem
        rcases hf4 name hmem with h | ⟨_, h⟩
        · exact hnv h
        · rw [hs1v] at h
          simp at h
      -- the final visiting list is the original one
      have hvisiting : markFalse (visitFold tables fuel { s with visiting := markTrue s.visiting name }
          (lookupTable tables name).ForeignKeys).visiting name = s.visiting := by
        rw [hf1]
        show markFalse (markTrue s.visiting name) name = s.visiting
        rw [hs1v]
        have hstep : markFalse (name :: s.visiting) name = markFalse s.visiting name := by
          simp [markFalse]
        rw [hstep, markFalse_of_not_mem hng]
      constructor
      · refine ⟨hvisiting, ?_, ?_, ?_, ?_⟩
        · intro n h
          exact mem_markTrue.mpr (Or.inr (hf2 n h))
        · obtain ⟨ext, hext⟩ := hf3
          exact ⟨ext ++ [lookupTable tables name], by
            show _ ++ _ = _
            rw [hext]
            simp [List.append_assoc]⟩
        · intro n h
          rcases mem_markTrue.mp h with rfl | h
          · exact Or.inr ⟨hex, hng⟩
          · rcases hf4 n h with h | ⟨hx, h⟩
            · exact Or.inl h
            · rw [hs1v] at h
              exact Or.inr ⟨hx, fun hm => h (List.mem_cons_of_mem _ hm)⟩
        · intro hInv
          obtain ⟨i1, i2, i3, i4⟩ := hInv
          have hInv1 : Inv tables { s with visiting := markTrue s.visiting name } := by
            refine ⟨i1, i2, ?_, i4⟩
            intro n hn
            rw [hs1v] at hn
            rcases List.mem_cons.mp hn with rfl | hn
            · exact hnv
            · exact i3 n hn
          obtain ⟨j1, j2, j3, j4⟩ := hf5 hInv1
          have hnames : name ∉ (visitFold tables fuel
              { s with visiting := markTrue s.visiting name }
              (lookupTable tables name).ForeignKeys).sorted.map Table.Name :=
            fun hmem => hnv2 ((j1 name).mpr hmem)
          refine ⟨?_, ?_, ?_, ?_⟩
          · intro n
            show n ∈ markTrue _ name ↔ n ∈ (_ ++ [lookupTable tables name]).map Table.Name
            rw [mem_markTrue]
            simp only [List.map_append, List.map_cons, List.map_nil, List.mem_append,
              List.mem_singleton, htname]
            rw [j1 n]
            tauto
          · show ((_ ++ [lookupTable tables name]).map Table.Name).Nodup
            simp only [List.map_append, List.map_cons, List.map_nil, htname]
            rw [List.nodup_append]
            exact ⟨j2, List.nodup_singleton name, by
              intro a ha hb
              simp only [List.mem_singleton] at hb
              subst hb
              exact hnames ha⟩
          · intro n hn
            show n ∉ markTrue _ name
            rcases mem_markFalse.mp hn with ⟨hn, hne⟩
            intro hmem
            rcases mem_markTrue.mp hmem with rfl | hmem
            · exact hne rfl
            · exact j3 n hn hmem
          · intro t' ht'
            rcases List.mem_append.mp ht' with ht' | ht'
            · exact j4 t' ht'
            · rcases List.mem_singleton.mp ht' with rfl
              refine ⟨by rw [htname]; exact hex, by rw [htname]⟩
      · intro _
        exact Or.inl (mem_markTrue.mpr (Or.inl rfl))

/-- Facts about the top-level `for _, table := range tables` loop of
`sortTablesByDependencies`, for any starting state with an empty in-progress
set. -/
theorem topFold_facts (tables : List Table) :
    ∀ (ts : List Table) (s : VisitState),
      (∀ t ∈ ts, tableExists tables t.Name = true) →
      s.visiting = [] → Inv tables s →
      Inv tables (ts.foldl (fun st t => visit tables (tables.length + 1) st t.Name) s) ∧
      (ts.foldl (fun st t => visit tables (tables.length + 1) st t.Name) s).visiting = [] ∧
      (∀ n, n ∈ s.visited →
        n ∈ (ts.foldl (fun st t => visit tables (tables.length + 1) st t.Name) s).visited) ∧
      (∀ t ∈ ts,
        t.Name ∈ (ts.foldl (fun st t => visit tables (tables.length + 1) st t.Name) s).visited) := by
  intro ts
  induction ts with
  | nil =>
    intro s _ hv hInv
    exact ⟨hInv, hv, fun _ h => h, fun t ht => absurd ht (List.not_mem_nil t)⟩
  | cons t ts ihl =>
    intro s hex hv hInv
    rw [List.foldl_cons]
    have hext : tableExists tables t.Name = true := hex t (List.mem_cons_self t ts)
    obtain ⟨hstep, hblack⟩ := visit_step tables (tables.length + 1) s t.Name hext
    have hv' : (visit tables (tables.length + 1) s t.Name).visiting = [] := by
      rw [hstep.1, hv]
    have hInv' : Inv tables (visit tables (tables.length + 1) s t.Name) :=
      hstep.2.2.2.2 hInv
    obtain ⟨hInvF, hvF, hmonoF, hcovF⟩ :=
      ihl (visit tables (tables.length + 1) s t.Name)
        (fun u hu => hex u (List.mem_cons_of_mem t hu)) hv' hInv'
    refine ⟨hInvF, hvF, ?_, ?_⟩
    · intro n hn
      exact hmonoF n (hstep.2.1 n hn)
    · intro u hu
      rcases List.mem_cons.mp hu with rfl | hu
      · have : u.Name ∈ (visit tables (tables.length + 1) s u.Name).visited := by
          rcases hblack (by omega) with h | h
          · exact h
          · rw [hv] at h; cases h
        exact hmonoF u.Name this
      · exact hcovF u hu

/-- The invariant holds for the initial empty state. -/
theorem inv_initial (tables : List Table) : Inv tables ⟨[], [], []⟩ := by
  refine ⟨fun n => ?_, by simp, fun n hn => absurd hn (List.not_mem_nil n), fun t ht => absurd ht (List.not_mem_nil t)⟩
  simp

/-- C9: on any input whose table names are pairwise distinct — cycles and
self-references included — `sortTablesByDependencies` returns a permutation
of its input: every table appears exactly once, none is dropped or
duplicated. (Termination is witnessed by the function being a total Lean
definition whose fuel is proved sufficient; the return type has no cycle
diagnostic to emit.) -/
theorem sortTablesByDependencies_perm (tables : List Table)
    (hnd : (tables.map Table.Name).Nodup) :
    (sortTablesByDependencies tables).Perm tables := by
  obtain ⟨hInvF, hvF, hmonoF, hcovF⟩ :=
    topFold_facts tables tables ⟨[], [], []⟩
      (fun t ht => tableExists_iff.mpr (List.mem_map_of_mem Table.Name ht))
      rfl (inv_initial tables)
  obtain ⟨i1, i2, i3, i4⟩ := hInvF
  apply (List.perm_ext_iff_of_nodup (List.Nodup.of_map Table.Name i2)
    (List.Nodup.of_map Table.Name hnd)).mpr
  intro t'
  constructor
  · intro ht'
    obtain ⟨hex, heq⟩ := i4 t' ht'
    rw [heq]
    exact (lookupTable_spec hex).1
  · intro ht'
    have hflag : t'.Name ∈ (tables.foldl
        (fun st t => visit tables (tables.length + 1) st t.Name) ⟨[], [], []⟩).visited :=
      hcovF t' ht'
    have hname := (i1 t'.Name).mp hflag
    rcases List.mem_map.mp hname with ⟨u, hu, huname⟩
    obtain ⟨_, huq⟩ := i4 u hu
    rw [huname] at huq
    rw [lookupTable_eq_self hnd ht'] at huq
    rw [huq] at hu
    exact hu

/-- Witness for C9 at a two-table foreign-key cycle. -/
theorem sortTablesByDependencies_perm_witness :
    (([⟨"a", [], [], [⟨"fk1", ["bid"], "b", ["id"], none, none⟩], [], []⟩,
       ⟨"b", [], [], [⟨"fk2", ["aid"], "a", ["id"], none, none⟩], [], []⟩] :
        List Table).map Table.Name).Nodup ∧
      (sortTablesByDependencies
        [⟨"a", [], [], [⟨"fk1", ["bid"], "b", ["id"], none, none⟩], [], []⟩,
         ⟨"b", [], [], [⟨"fk2", ["aid"], "a", ["id"], none, none⟩], [], []⟩]).Perm
        [⟨"a", [], [], [⟨"fk1", ["bid"], "b", ["id"], none, none⟩], [], []⟩,
         ⟨"b", [], [], [⟨"fk2", ["aid"], "a", ["id"], none, none⟩], [], []⟩] :=
  ⟨by decide, sortTablesByDependencies_perm _ (by decide)⟩

theorem refsPrecede_nil (tables : List Table) : RefsPrecede tables [] := by
  intro l₁ t l₂ heq
  exact absurd heq.symm (List.append_ne_nil_of_right_ne_nil l₁ (List.cons_ne_nil t l₂))

theorem concat_decomp {α : Type} :
    ∀ (l : List α) (t : α) (l₁ : List α) (t' : α) (l₂ : List α),
      l ++ [t] = l₁ ++ t' :: l₂ →
      (l₁ = l ∧ t' = t) ∨ ∃ l₂', l = l₁ ++ t' :: l₂' := by
  intro l t
  induction l with
  | nil =>
    intro l₁ t' l₂ heq
    cases l₁ with
    | nil =>
      simp only [List.nil_append] at heq
      cases heq
      exact Or.inl ⟨rfl, rfl⟩
    | cons a l₁ =>
      simp only [List.nil_append, List.cons_append] at heq
      injection heq with h1 h2
      exact absurd h2.symm (List.append_ne_nil_of_right_ne_nil l₁ (List.cons_ne_nil t' l₂))
  | cons a l ihl =>
    intro l₁ t' l₂ heq
    cases l₁ with
    | nil =>
      simp only [List.nil_append, List.cons_append, List.cons.injEq] at heq
      exact Or.inr ⟨l, by rw [heq.1]; simp⟩
    | cons b l₁ =>
      simp only [List.cons_append, List.cons.injEq] at heq
      obtain ⟨rfl, heq⟩ := heq
      rcases ihl l₁ t' l₂ heq with ⟨rfl, rfl⟩ | ⟨l₂', hl⟩
      · exact Or.inl ⟨rfl, rfl⟩
      · exact Or.inr ⟨l₂', by rw [hl]; simp⟩

theorem refsPrecede_append {tables : List Table} {l : List Table} {t : Table}
    (h : RefsPrecede tables l)
    (ht : ∀ fk ∈ t.ForeignKeys, tableExists tables fk.ReferencedTable = true →
      fk.ReferencedTable ∈ l.map Table.Name) :
    RefsPrecede tables (l ++ [t]) := by
  intro l₁ t' l₂ heq fk hfk hex
  rcases concat_decomp l t l₁ t' l₂ heq with ⟨rfl, rfl⟩ | ⟨l₂', hl⟩
  · exact ht fk hfk hex
  · exact h l₁ t' l₂' hl fk hfk hex

/-- Adding a name to the in-progress set while it is unvisited preserves the
invariant. -/
theorem inv_markVisiting {tables : List Table} {s : VisitState} {name : String}
    (hInv : Inv tables s) (hnv : name ∉ s.visited) :
    Inv tables { s with visiting := markTrue s.visiting name } := by
  obtain ⟨i1, i2, i3, i4⟩ := hInv
  refine ⟨i1, i2, ?_, i4⟩
  intro n hn
  rcases mem_markTrue.mp hn with rfl | hn
  · exact hnv
  · exact i3 n hn

/-- The foreign-key loop preserves the topological-order invariant (given
acyclicity), and afterwards every existing referenced table of the processed
key list is visited or was already in progress. -/
theorem visitFold_topo (tables : List Table) (_hacy : Acyclic tables) (fuel : Nat) (name : String)
    (ihf : ∀ (s : VisitState) (n : String),
      tableExists tables n = true →
      unmarkedCount tables s < fuel →
      Inv tables s →
      RefsPrecede tables s.sorted →
      (∀ v ∈ s.visiting, Relation.ReflTransGen (EdgeP tables) v n) →
      RefsPrecede tables (visit tables fuel s n).sorted) :
    ∀ (fks : List ForeignKey) (s : VisitState),
      unmarkedCount tables s < fuel →
      Inv tables s →
      RefsPrecede tables s.sorted →
      (∀ v ∈ s.visiting, Relation.ReflTransGen (EdgeP tables) v name) →
      (∀ fk ∈ fks, tableExists tables fk.ReferencedTable = true →
        EdgeP tables name fk.ReferencedTable) →
      RefsPrecede tables (visitFold tables fuel s fks).sorted ∧
      Inv tables (visitFold tables fuel s fks) ∧
      (visitFold tables fuel s fks).visiting = s.visiting ∧
      unmarkedCount tables (visitFold tables fuel s fks) ≤ unmarkedCount tables s ∧
      (∀ fk ∈ fks, tableExists tables fk.ReferencedTable = true →
        fk.ReferencedTable ∈ (visitFold tables fuel s fks).visited ∨
          fk.ReferencedTable ∈ s.visiting) := by
  intro fks
  induction fks with
  | nil =>
    intro s _ hInv hRP _ _
    exact ⟨hRP, hInv, rfl, Nat.le_refl _, fun fk hfk => absurd hfk (List.not_mem_nil fk)⟩
  | cons fk fks ihl =>
    intro s hcount hInv hRP hgrey hedges
    rw [visitFold_cons]
    by_cases hex : tableExists tables fk.ReferencedTable = true
    · rw [if_pos hex]
      have hedge : EdgeP tables name fk.ReferencedTable :=
        hedges fk (List.mem_cons_self fk fks) hex
      obtain ⟨hstep, hblack⟩ := visit_step tables fuel s fk.ReferencedTable hex
      have hRP' : RefsPrecede tables (visit tables fuel s fk.ReferencedTable).sorted :=
        ihf s fk.ReferencedTable hex hcount hInv hRP
          (fun v hv => Relation.ReflTransGen.tail (hgrey v hv) hedge)
      have hInv' : Inv tables (visit tables fuel s fk.ReferencedTable) :=
        hstep.2.2.2.2 hInv
      have hvis' : (visit tables fuel s fk.ReferencedTable).visiting = s.visiting := hstep.1
      have hcount' :
          unmarkedCount tables (visit tables fuel s fk.ReferencedTable) ≤
            unmarkedCount tables s :=
        unmarkedCount_le_of_marksSub tables (marksSub_of_step hstep)
      have hgrey' : ∀ v ∈ (visit tables fuel s fk.ReferencedTable).visiting,
          Relation.ReflTransGen (EdgeP tables) v name := by
        rw [hvis']; exact hgrey
      obtain ⟨fRP, fInv, fvis, fcount, fcover⟩ :=
        ihl (visit tables fuel s fk.ReferencedTable)
          (Nat.lt_of_le_of_lt hcount' hcount) hInv' hRP' hgrey'
          (fun u hu hx => hedges u (List.mem_cons_of_mem fk hu) hx)
      have ffull := visitFold_step tables fuel (fun s' n hx => (visit_step tables fuel s' n hx).1)
        fks (visit tables fuel s fk.ReferencedTable)
      refine ⟨fRP, fInv, by rw [fvis, hvis'], Nat.le_trans fcount hcount', ?_⟩
      intro u hu hx
      rcases List.mem_cons.mp hu with rfl | hu
      · rcases hblack (by omega) with h | h
        · exact Or.inl (ffull.2.1 u.ReferencedTable h)
        · exact Or.inr h
      · rcases fcover u hu hx with h | h
        · exact Or.inl h
        · rw [hvis'] at h
          exact Or.inr h
    · rw [if_neg hex]
      obtain ⟨fRP, fInv, fvis, fcount, fcover⟩ :=
        ihl s hcount hInv hRP hgrey (fun u hu hx => hedges u (List.mem_cons_of_mem fk hu) hx)
      refine ⟨fRP, fInv, fvis, fcount, ?_⟩
      intro u hu hx
      rcases List.mem_cons.mp hu with rfl | hu
      · exact absurd hx hex
      · exact fcover u hu hx

/-- With an acyclic reference graph and sufficient fuel, `visit` preserves
the topological-order property of the output slice. -/
theorem visit_topo (tables : List Table) (hacy : Acyclic tables) :
    ∀ (fuel : Nat) (s : VisitState) (name : String),
      tableExists tables name = true →
      unmarkedCount tables s < fuel →
      Inv tables s →
      RefsPrecede tables s.sorted →
      (∀ v ∈ s.visiting, Relation.ReflTransGen (EdgeP tables) v name) →
      RefsPrecede tables (visit tables fuel s name).sorted := by
  intro fuel
  induction fuel with
  | zero =>
    intro s name _ hcount
    exact absurd hcount (by omega)
  | succ fuel ih =>
    intro s name hex hcount hInv hRP hgrey
    by_cases hg : name ∈ s.visited ∨ name ∈ s.visiting
    · rw [visit_succ, if_pos hg]; exact hRP
    · have hnv : name ∉ s.visited := fun h => hg (Or.inl h)
      have hng : name ∉ s.visiting := fun h => hg (Or.inr h)
      have htname : (lookupTable tables name).Name = name := (lookupTable_spec hex).2
      have htmem : lookupTable tables name ∈ tables := (lookupTable_spec hex).1
      rw [visit_succ, if_neg hg]
      have hs1v : markTrue s.visiting name = name :: s.visiting := by
        simp [markTrue, hng]
      have hInv1 : Inv tables { s with visiting := markTrue s.visiting name } :=
        inv_markVisiting hInv hnv
      have hsub1 : MarksSub s { s with visiting := markTrue s.visiting name } := by
        intro n hn
        rcases hn with hn | hn
        · exact Or.inl hn
        · exact Or.inr (mem_markTrue.mpr (Or.inr hn))
      have hcount1 :
          unmarkedCount tables { s with visiting := markTrue s.visiting name } <
            unmarkedCount tables s := by
        apply unmarkedCount_lt tables hsub1 (tableExists_iff.mp hex) hnv hng
        exact Or.inr (mem_markTrue.mpr (Or.inl rfl))
      have hedges : ∀ fk ∈ (lookupTable tables name).ForeignKeys,
          tableExists tables fk.ReferencedTable = true →
          EdgeP tables name fk.ReferencedTable := by
        intro fk hfk hx
        exact ⟨lookupTable tables name, htmem, htname, fk, hfk, rfl, hx⟩
      have hgrey1 : ∀ v ∈ markTrue s.visiting name,
          Relation.ReflTransGen (EdgeP tables) v name := by
        intro v hv
        rcases mem_markTrue.mp hv with rfl | hv
        · exact Relation.ReflTransGen.refl
        · exact hgrey v hv
      obtain ⟨fRP, fInv, fvis, fcount, fcover⟩ :=
        visitFold_topo tables hacy fuel name ih
          (lookupTable tables name).ForeignKeys
          { s with visiting := markTrue s.visiting name }
          (by omega) hInv1 hRP hgrey1 hedges
      apply refsPrecede_append fRP
      intro fk hfk hx
      rcases fcover fk hfk hx with h | h
      · exact (fInv.1 fk.ReferencedTable).mp h
      · exfalso
        show False
        have h' : fk.ReferencedTable ∈ name :: s.visiting := by
          rw [← hs1v]; exact h
        rcases List.mem_cons.mp h' with heq | hmem
        · exact hacy name (Relation.TransGen.single (heq ▸ hedges fk hfk hx))
        · exact hacy name
            (Relation.TransGen.head' (hedges fk hfk hx) (hgrey fk.ReferencedTable hmem))

/-- The top-level loop preserves the topological-order property under
acyclicity. -/
theorem topFold_topo (tables : List Table) (hacy : Acyclic tables) :
    ∀ (ts : List Table) (s : VisitState),
      (∀ t ∈ ts, tableExists tables t.Name = true) →
      s.visiting = [] → Inv tables s → RefsPrecede tables s.sorted →
      unmarkedCount tables s ≤ tables.length →
      RefsPrecede tables
        (ts.foldl (fun st t => visit tables (tables.length + 1) st t.Name) s).sorted := by
  intro ts
  induction ts with
  | nil => intro s _ _ _ hRP _; exact hRP
  | cons t ts ihl =>
    intro s hex hv hInv hRP hcount
    rw [List.foldl_cons]
    have hext : tableExists tables t.Name = true := hex t (List.mem_cons_self t ts)
    obtain ⟨hstep, _⟩ := visit_step tables (tables.length + 1) s t.Name hext
    have hRP' : RefsPrecede tables (visit tables (tables.length + 1) s t.Name).sorted := by
      apply visit_topo tables hacy (tables.length + 1) s t.Name hext (by omega) hInv hRP
      intro v hv'
      rw [hv] at hv'
      cases hv'
    apply ihl (visit tables (tables.length + 1) s t.Name)
      (fun u hu => hex u (List.mem_cons_of_mem t hu))
      (by rw [hstep.1, hv]) (hstep.2.2.2.2 hInv) hRP'
    calc unmarkedCount tables (visit tables (tables.length + 1) s t.Name)
        ≤ unmarkedCount tables s := unmarkedCount_le_of_marksSub tables (marksSub_of_step hstep)
      _ ≤ tables.length := hcount

/-- C1 amended: provided the foreign-key reference graph over the input set
is acyclic, `sortTablesByDependencies` orders the tables so that for every
`ForeignKey` whose referenced table exists in the input set, the referenced
table appears strictly before the referencing table; on cyclic inputs (which
the code neither detects nor diagnoses) some edge of each cycle necessarily
violates this, as the counterexample shows. -/
theorem sortTablesByDependencies_topological (tables : List Table)
    (hacy : Acyclic tables) :
    RefsPrecede tables (sortTablesByDependencies tables) := by
  have hcount0 : unmarkedCount tables ⟨[], [], []⟩ ≤ tables.length := by
    unfold unmarkedCount
    calc (((tables.map Table.Name).dedup).filter _).length
        ≤ ((tables.map Table.Name).dedup).length :=
          List.Sublist.length_le (List.filter_sublist _)
      _ ≤ (tables.map Table.Name).length :=
          List.Sublist.length_le ((tables.map Table.Name).dedup_sublist)
      _ = tables.length := List.length_map tables Table.Name
  exact topFold_topo tables hacy tables ⟨[], [], []⟩
    (fun t ht => tableExists_iff.mpr (List.mem_map_of_mem Table.Name ht))
    rfl (inv_initial tables) (refsPrecede_nil tables) hcount0

/-- C1 counterexample: for the two-table cycle `a → b → a` (each table
holding a single-column foreign key to the other, both present), the
sorter's output `[b, a]` violates the claimed ordering — table `b`'s foreign
key references `a`, which exists in the input, yet `a` does not precede `b`. -/
theorem sortTablesByDependencies_refsPrecede_cex :
    ¬ RefsPrecede
        [⟨"a", [], [], [⟨"fk1", ["bid"], "b", ["id"], none, none⟩], [], []⟩,
         ⟨"b", [], [], [⟨"fk2", ["aid"], "a", ["id"], none, none⟩], [], []⟩]
        (sortTablesByDependencies
          [⟨"a", [], [], [⟨"fk1", ["bid"], "b", ["id"], none, none⟩], [], []⟩,
           ⟨"b", [], [], [⟨"fk2", ["aid"], "a", ["id"], none, none⟩], [], []⟩]) := by
  intro h
  have hout : sortTablesByDependencies
      [⟨"a", [], [], [⟨"fk1", ["bid"], "b", ["id"], none, none⟩], [], []⟩,
       ⟨"b", [], [], [⟨"fk2", ["aid"], "a", ["id"], none, none⟩], [], []⟩] =
      [] ++ (⟨"b", [], [], [⟨"fk2", ["aid"], "a", ["id"], none, none⟩], [], []⟩ : Table) ::
        [⟨"a", [], [], [⟨"fk1", ["bid"], "b", ["id"], none, none⟩], [], []⟩] := by
    decide
  have := h [] _ _ hout ⟨"fk2", ["aid"], "a", ["id"], none, none⟩ (by decide) (by decide)
  simp at this

/-- Rank-function criterion for acyclicity of the reference graph. -/
theorem acyclic_of_rank (tables : List Table) (f : String → Nat)
    (h : ∀ a b, EdgeP tables a b → f b < f a) : Acyclic tables := by
  have hlt : ∀ a b, Relation.TransGen (EdgeP tables) a b → f b < f a := by
    intro a b htg
    induction htg with
    | single hedge => exact h _ _ hedge
    | tail _ hedge ih => exact Nat.lt_trans (h _ _ hedge) ih
  intro a hcyc
  exact absurd (hlt a a hcyc) (by omega)

/-- Witness for the amended C1 theorem: the spec's scenario-2 shape
(`comments` references `posts` and `users`, `posts` references `users`) is
acyclic, and the sorter's output satisfies the ordering property. -/
theorem sortTablesByDependencies_topological_witness :
    Acyclic
      [⟨"comments", [], [], [⟨"fkp", ["post_id"], "posts", ["id"], none, none⟩,
          ⟨"fku", ["user_id"], "users", ["id"], none, none⟩], [], []⟩,
       ⟨"posts", [], [], [⟨"fku2", ["user_id"], "users", ["id"], none, none⟩], [], []⟩,
       ⟨"users", [], [], [], [], []⟩] ∧
    RefsPrecede
      [⟨"comments", [], [], [⟨"fkp", ["post_id"], "posts", ["id"], none, none⟩,
          ⟨"fku", ["user_id"], "users", ["id"], none, none⟩], [], []⟩,
       ⟨"posts", [], [], [⟨"fku2", ["user_id"], "users", ["id"], none, none⟩], [], []⟩,
       ⟨"users", [], [], [], [], []⟩]
      (sortTablesByDependencies
        [⟨"comments", [], [], [⟨"fkp", ["post_id"], "posts", ["id"], none, none⟩,
            ⟨"fku", ["user_id"], "users", ["id"], none, none⟩], [], []⟩,
         ⟨"posts", [], [], [⟨"fku2", ["user_id"], "users", ["id"], none, none⟩], [], []⟩,
         ⟨"users", [], [], [], [], []⟩]) := by
  have hacy : Acyclic
      [⟨"comments", [], [], [⟨"fkp", ["post_id"], "posts", ["id"], none, none⟩,
          ⟨"fku", ["user_id"], "users", ["id"], none, none⟩], [], []⟩,
       ⟨"posts", [], [], [⟨"fku2", ["user_id"], "users", ["id"], none, none⟩], [], []⟩,
       ⟨"users", [], [], [], [], []⟩] := by
    apply acyclic_of_rank _ (fun n => if n = "users" then 0 else if n = "posts" then 1 else 2)
    rintro a b ⟨t, ht, rfl, fk, hfk, rfl, -⟩
    simp only [List.mem_cons, List.not_mem_nil, or_false] at ht
    rcases ht with rfl | rfl | rfl
    · simp only [List.mem_cons, List.not_mem_nil, or_false] at hfk
      rcases hfk with rfl | rfl <;> decide
    · simp only [List.mem_cons, List.not_mem_nil, or_false] at hfk
      rcases hfk with rfl
      decide
    · simp at hfk
  exact ⟨hacy, sortTablesByDependencies_topological _ hacy⟩

/-! ### Code emitter (generator/postgres.go, `GenerateTable`, `convertCase`) -/

/-- Model of Go `strings.Split` on a single-character separator. -/
def splitOnChar (c : Char) : List Char → List (List Char)
  | [] => [[]]
  | x :: xs =>
    let r := splitOnChar c xs
    if x = c then [] :: r
    else
      match r with
      | [] => [[x]]
      | y :: ys => (x :: y) :: ys

/-- `strings.ToUpper(w[:1]) + w[1:]` for a word (ASCII). The Go code skips
empty words, which contribute nothing — the same as capitalizing them. -/
def capitalizeWord : List Char → List Char
  | [] => []
  | c :: cs => Char.toUpper c :: cs

/-- `toCamelCase` from generator/postgres.go. -/
def toCamelCase (input : String) : String :=
  match splitOnChar '_' input.data with
  | [] => input
  | w0 :: rest => String.mk (rest.foldl (fun acc w => acc ++ capitalizeWord w) w0)

/-- `toPascalCase` from generator/postgres.go. -/
def toPascalCase (input : String) : String :=
  String.mk ((splitOnChar '_' input.data).foldl (fun acc w => acc ++ capitalizeWord w) [])

/-- `convertCase` from generator/postgres.go (NamingCase is a Go string). -/
def convertCase (input : String) (caseType : String) : String :=
  if caseType = "camel" then toCamelCase input
  else if caseType = "pascal" then toPascalCase input
  else if caseType = "snake" then input
  else if caseType = "kebab" then
    String.mk (input.data.map (fun c => if c = '_' then '-' else c))
  else input

/-- Model of Go `strings.Join`. -/
def joinSep (sep : String) : List String → String
  | [] => ""
  | [x] => x
  | x :: y :: ys => x ++ sep ++ joinSep sep (y :: ys)

/-- The foreign-key annotation loop of `GenerateTable` for one column: scan
`table.ForeignKeys` for the first key whose local column list is exactly the
column's name (the `len(fk.Columns) == 1 && fk.Columns[0] == column.Name`
test, with `break` after the first hit); emit the `.references(...)` text
only when that key also has exactly one referenced column. -/
def referencesClause (table : Table) (options : GeneratorOptions) (colName : String) : String :=
  match table.ForeignKeys.find? (fun fk => fk.Columns == [colName]) with
  | none => ""
  | some fk =>
    match fk.ReferencedColumns with
    | [rc] =>
      ".references(() => " ++ convertCase fk.ReferencedTable options.TableNameCase ++
        "." ++ convertCase rc options.ColumnNameCase ++ ")"
    | _ => ""

/-- One column line of `GenerateTable`, with the trailing comma for all but
the last column. -/
def generateColumnEntry (table : Table) (options : GeneratorOptions) (indent : String)
    (column : Column) (isLast : Bool) : Except String String :=
  match MapColumnType column with
  | .error e => .error ("failed to map column " ++ column.Name ++ ": " ++ e)
  | .ok dt =>
    .ok (indent ++ convertCase column.Name options.ColumnNameCase ++ ": " ++
      dt.Function ++ "(" ++ joinSep ", " dt.Args ++ ")" ++
      dt.Options.foldl (fun acc o => acc ++ "." ++ o) "" ++
      (if column.Name ∈ table.PrimaryKey then ".primaryKey()" else "") ++
      referencesClause table options column.Name ++
      (if isLast then "" else ",") ++ "\n")

/-- The column loop of `GenerateTable`. -/
def generateColumns (table : Table) (options : GeneratorOptions) (indent : String) :
    List Column → Except String String
  | [] => .ok ""
  | column :: rest =>
    match generateColumnEntry table options indent column rest.isEmpty with
    | .error e => .error e
    | .ok line =>
      match generateColumns table options indent rest with
      | .error e => .error e
      | .ok body => .ok (line ++ body)

/-- `GenerateTable` from generator/postgres.go. -/
def GenerateTable (table : Table) (options : GeneratorOptions) : Except String GeneratedTable :=
  let exportName := convertCase table.Name options.TableNameCase
  let indent := String.mk (List.replicate options.IndentSize ' ')
  match generateColumns table options indent table.Columns with
  | .error e => .error e
  | .ok body =>
    .ok { OriginalName := table.Name
          ExportName := exportName
          Definition :=
            (if options.IncludeComments then "// " ++ table.Name ++ " table\n" else "") ++
            "export const " ++ options.ExportPrefix ++ exportName ++ " = pgTable(\x27" ++
            table.Name ++ "\x27, \x7b\n" ++ body ++ "\x7d);" }

/-- C7 counterexample: the column `c` participates in a foreign key with
exactly one local and one referenced column (`fk2`), yet no reference
modifier is emitted, because the loop breaks at the first key whose local
column list is `[c]` — here `fk1`, which has two referenced columns. -/
theorem generateTable_reference_iff_cex :
    ¬ (referencesClause
        ⟨"t", [], [], [⟨"fk1", ["c"], "other", ["a", "b"], none, none⟩,
          ⟨"fk2", ["c"], "other", ["a"], none, none⟩], [], []⟩
        ⟨"snake", "snake", false, "", 2⟩ "c" ≠ "" ↔
      ∃ fk ∈ (⟨"t", [], [], [⟨"fk1", ["c"], "other", ["a", "b"], none, none⟩,
          ⟨"fk2", ["c"], "other", ["a"], none, none⟩], [], []⟩ : Table).ForeignKeys,
        fk.Columns = ["c"] ∧ fk.ReferencedColumns.length = 1) := by
  decide

/-- C7 amended: a reference modifier is appended to a column's declaration
iff the first foreign key (in declaration order) whose local column list is
exactly that column has exactly one referenced column; in particular any
foreign key with several local columns never matches, and a multi-column
referenced list on the first matching key suppresses the annotation even if
a later single-column key also matches. -/
theorem generateTable_reference_iff (table : Table) (options : GeneratorOptions)
    (colName : String) :
    referencesClause table options colName ≠ "" ↔
      ∃ fk, table.ForeignKeys.find? (fun fk => fk.Columns == [colName]) = some fk ∧
        fk.ReferencedColumns.length = 1 := by
  unfold referencesClause
  cases hfind : table.ForeignKeys.find? (fun fk => fk.Columns == [colName]) with
  | none =>
    simp
  | some fk =>
    dsimp only
    cases hrc : fk.ReferencedColumns with
    | nil =>
      constructor
      · intro h
        exact absurd rfl h
      · rintro ⟨fk', hfk', hlen⟩
        injection hfk' with h
        subst h
        rw [hrc] at hlen
        simp at hlen
    | cons rc rest =>
      cases rest with
      | nil =>
        constructor
        · intro _
          exact ⟨fk, rfl, by simp [hrc]⟩
        · intro _ habs
          have hlen := congrArg (fun s => s.data.length) habs
          simp only [String.data_append, List.length_append] at hlen
          rw [show (".references(() => " : String).data.length = 18 from rfl,
            show ("" : String).data.length = 0 from rfl] at hlen
          omega
      | cons rc2 rest2 =>
        constructor
        · intro h
          exact absurd rfl h
        · rintro ⟨fk', hfk', hlen⟩
          injection hfk' with h
          subst h
          rw [hrc] at hlen
          simp at hlen

/-! ### Import sort (generator/postgres.go, the nested `for i`/`for j` swap
loops in `GenerateSchema`)

The Go loops sort the slice in place by comparing and swapping positions
`i < j`.  They are modelled by count-down recursion (`k` counts the
remaining iterations, so `k + j` stays equal to the slice length in the
inner loop), with `getD`/`set` for the in-bounds index accesses. -/

/-- Inner loop `for j := i + 1; j < len; j++ { if a[i] > a[j] { swap } }`. -/
def innerLoop (i : Nat) : Nat → List String → Nat → List String
  | 0, l, _ => l
  | k + 1, l, j =>
    innerLoop i k
      (if l.getD j "" < l.getD i "" then (l.set i (l.getD j "")).set j (l.getD i "") else l)
      (j + 1)

/-- Outer loop `for i := 0; i < len; i++`. -/
def outerLoop : Nat → List String → Nat → List String
  | 0, l, _ => l
  | k + 1, l, i => outerLoop k (innerLoop i (l.length - (i + 1)) l (i + 1)) (i + 1)

/-- The whole sort of the `importList` slice. -/
def sortStrings (l : List String) : List String := outerLoop l.length l 0

theorem getD_set_eq {α : Type} {l : List α} {i : Nat} {a d : α} (h : i < l.length) :
    (l.set i a).getD i d = a := by
  simp [List.getD_eq_getElem?_getD, List.getElem?_set_self h]

theorem getD_set_ne {α : Type} {l : List α} {i m : Nat} (h : i ≠ m) {a : α} (d : α) :
    (l.set i a).getD m d = l.getD m d := by
  simp [List.getD_eq_getElem?_getD, List.getElem?_set_ne h]

theorem get_cons_set_perm {α : Type} (d : α) :
    ∀ (t : List α) (m : Nat), m < t.length → ∀ a : α,
      (t.getD m d :: t.set m a).Perm (a :: t) := by
  intro t
  induction t with
  | nil => intro m hm; exact absurd hm (by simp)
  | cons b s ih =>
    intro m hm a
    cases m with
    | zero =>
      simp only [List.getD_cons_zero, List.set_cons_zero]
      exact List.Perm.swap a b s
    | succ k =>
      simp only [List.getD_cons_succ, List.set_cons_succ]
      have hk : k < s.length := by simpa using hm
      exact ((List.Perm.swap b (s.getD k d) (s.set k a)).trans
        (List.Perm.cons b (ih k hk a))).trans (List.Perm.swap a b s)

theorem set_set_swap_perm {α : Type} (d : α) :
    ∀ (l : List α) (i j : Nat), i < l.length → j < l.length →
      ((l.set i (l.getD j d)).set j (l.getD i d)).Perm l := by
  intro l
  induction l with
  | nil => intro i j hi; exact absurd hi (by simp)
  | cons x xs ih =>
    intro i j hi hj
    cases i with
    | zero =>
      cases j with
      | zero => simp
      | succ m =>
        have hm : m < xs.length := by simpa using hj
        simp only [List.getD_cons_succ, List.getD_cons_zero, List.set_cons_zero,
          List.set_cons_succ]
        exact get_cons_set_perm d xs m hm x
    | succ n =>
      have hn : n < xs.length := by simpa using hi
      cases j with
      | zero =>
        simp only [List.getD_cons_succ, List.getD_cons_zero, List.set_cons_zero,
          List.set_cons_succ]
        exact get_cons_set_perm d xs n hn x
      | succ m =>
        have hm : m < xs.length := by simpa using hj
        simp only [List.getD_cons_succ, List.set_cons_succ]
        exact List.Perm.cons x (ih n m hn hm)

/-- Full specification of the inner loop: length and multiset are preserved,
positions outside `{i} ∪ [j, j+k)` are untouched, positions at or after `i`
are filled from positions at or after `i`, and afterwards position `i` holds
a value no larger than any position in `(i, j + k)`. -/
theorem innerLoop_spec (i : Nat) :
    ∀ (k : Nat) (l : List String) (j : Nat),
      k + j ≤ l.length → i < l.length → i < j →
      (∀ m, i < m → m < j → l.getD i "" ≤ l.getD m "") →
      (innerLoop i k l j).length = l.length ∧
      (innerLoop i k l j).Perm l ∧
      (∀ m, m ≠ i → (m < j ∨ j + k ≤ m) → (innerLoop i k l j).getD m "" = l.getD m "") ∧
      (∀ q, i ≤ q → q < l.length → ∃ m, i ≤ m ∧ m < l.length ∧
        (innerLoop i k l j).getD q "" = l.getD m "") ∧
      (∀ m, i < m → m < j + k →
        (innerLoop i k l j).getD i "" ≤ (innerLoop i k l j).getD m "") := by
  intro k
  induction k with
  | zero =>
    intro l j _ _ _ hmin
    refine ⟨rfl, List.Perm.refl l, fun m _ _ => rfl, fun q hq hql => ⟨q, hq, hql, rfl⟩, ?_⟩
    intro m him hm
    exact hmin m him (by omega)
  | succ k ih =>
    intro l j hk hi hij hmin
    have hj : j < l.length := by omega
    simp only [innerLoop]
    by_cases hswap : l.getD j "" < l.getD i ""
    · rw [if_pos hswap]
      have hlen1 : ((l.set i (l.getD j "")).set j (l.getD i "")).length = l.length := by
        simp
      have hgi : ((l.set i (l.getD j "")).set j (l.getD i "")).getD i "" = l.getD j "" := by
        rw [getD_set_ne (by omega), getD_set_eq hi]
      have hgj : ((l.set i (l.getD j "")).set j (l.getD i "")).getD j "" = l.getD i "" := by
        rw [getD_set_eq (by simpa using hj)]
      have hother : ∀ m, m ≠ i → m ≠ j →
          ((l.set i (l.getD j "")).set j (l.getD i "")).getD m "" = l.getD m "" := by
        intro m hmi hmj
        rw [getD_set_ne (fun h => hmj h.symm), getD_set_ne (fun h => hmi h.symm)]
      have hmin' : ∀ m, i < m → m < j + 1 →
          ((l.set i (l.getD j "")).set j (l.getD i "")).getD i "" ≤
            ((l.set i (l.getD j "")).set j (l.getD i "")).getD m "" := by
        intro m him hm
        rw [hgi]
        by_cases hmj : m = j
        · rw [hmj, hgj]
          exact le_of_lt hswap
        · rw [hother m (by omega) hmj]
          exact le_trans (le_of_lt hswap) (hmin m him (by omega))
      obtain ⟨r1, r2, r3, r4, r5⟩ :=
        ih ((l.set i (l.getD j "")).set j (l.getD i "")) (j + 1)
          (by omega) (by omega) (by omega)
          (fun m him hm => hmin' m him hm)
      refine ⟨r1.trans hlen1, r2.trans (set_set_swap_perm "" l i j hi hj), ?_, ?_, ?_⟩
      · intro m hmi hrange
        have hmj : m ≠ j := by omega
        rw [r3 m hmi (by omega), hother m hmi hmj]
      · intro q hq hql
        obtain ⟨m, hm1, hm2, hm3⟩ := r4 q hq (by omega)
        by_cases hmi : m = i
        · exact ⟨j, by omega, hj, by rw [hm3, hmi, hgi]⟩
        · by_cases hmj : m = j
          · exact ⟨i, le_refl i, hi, by rw [hm3, hmj, hgj]⟩
          · exact ⟨m, hm1, by omega, by rw [hm3, hother m hmi hmj]⟩
      · intro m him hm
        exact r5 m him (by omega)
    · rw [if_neg hswap]
      have hle : l.getD i "" ≤ l.getD j "" := le_of_not_lt hswap
      have hmin' : ∀ m, i < m → m < j + 1 → l.getD i "" ≤ l.getD m "" := by
        intro m him hm
        by_cases hmj : m = j
        · rw [hmj]; exact hle
        · exact hmin m him (by omega)
      obtain ⟨r1, r2, r3, r4, r5⟩ := ih l (j + 1) (by omega) hi (by omega) hmin'
      refine ⟨r1, r2, ?_, r4, ?_⟩
      · intro m hmi hrange
        exact r3 m hmi (by omega)
      · intro m him hm
        exact r5 m him (by omega)

/-- Full specification of the outer loop: with `k + i = length` and the
prefix below `i` already in final sorted position, the result is a sorted
permutation. -/
theorem outerLoop_spec :
    ∀ (k : Nat) (l : List String) (i : Nat),
      k + i = l.length →
      (∀ p q, p < i → p < q → q < l.length → l.getD p "" ≤ l.getD q "") →
      (outerLoop k l i).length = l.length ∧
      (outerLoop k l i).Perm l ∧
      (∀ p q, p < q → q < l.length → (outerLoop k l i).getD p "" ≤ (outerLoop k l i).getD q "") := by
  intro k
  induction k with
  | zero =>
    intro l i hk hpre
    exact ⟨rfl, List.Perm.refl l, fun p q hpq hq => hpre p q (by omega) hpq hq⟩
  | succ k ih =>
    intro l i hk hpre
    have hi : i < l.length := by omega
    simp only [outerLoop]
    obtain ⟨r1, r2, r3, r4, r5⟩ :=
      innerLoop_spec i (l.length - (i + 1)) l (i + 1)
        (by omega) hi (by omega) (fun m him hm => absurd him (by omega))
    have hpre' : ∀ p q, p < i + 1 → p < q →
        q < (innerLoop i (l.length - (i + 1)) l (i + 1)).length →
        (innerLoop i (l.length - (i + 1)) l (i + 1)).getD p "" ≤
          (innerLoop i (l.length - (i + 1)) l (i + 1)).getD q "" := by
      intro p q hp hpq hq
      rw [r1] at hq
      by_cases hpi : p = i
      · subst hpi
        exact r5 q (by omega) (by omega)
      · have hpi' : p < i := by omega
        rw [r3 p (by omega) (Or.inl (by omega))]
        by_cases hqi : q < i
        · rw [r3 q (by omega) (Or.inl (by omega))]
          exact hpre p q hpi' hpq hq
        · obtain ⟨m, hm1, hm2, hm3⟩ := r4 q (by omega) hq
          rw [hm3]
          exact hpre p m hpi' (by omega) hm2
    obtain ⟨s1, s2, s3⟩ := ih (innerLoop i (l.length - (i + 1)) l (i + 1)) (i + 1)
      (by rw [r1]; omega) hpre'
    refine ⟨s1.trans r1, s2.trans r2, ?_⟩
    intro p q hpq hq
    exact s3 p q hpq (by rw [r1]; exact hq)

/-- The import sort returns a permutation of its input. -/
theorem sortStrings_perm (l : List String) : (sortStrings l).Perm l :=
  (outerLoop_spec l.length l 0 (by omega)
    (fun p q hp _ _ => absurd hp (by omega))).2.1

/-- The import sort's output is pairwise nondecreasing. -/
theorem sortStrings_sorted (l : List String) : (sortStrings l).Sorted (· ≤ ·) := by
  obtain ⟨h1, _, h3⟩ := outerLoop_spec l.length l 0 (by omega)
    (fun p q hp _ _ => absurd hp (by omega))
  rw [List.Sorted, List.pairwise_iff_getElem]
  intro a b ha hb hab
  have ha' : a < (outerLoop l.length l 0).length := ha
  have hb' : b < (outerLoop l.length l 0).length := hb
  have hx := h3 a b hab (by rw [← h1]; exact hb')
  rw [List.getD_eq_getElem?_getD, List.getD_eq_getElem?_getD,
    List.getElem?_eq_getElem ha', List.getElem?_eq_getElem hb'] at hx
  simpa using hx

/-- Sorting is canonical on permutations: the map-iteration order of the
Go import set cannot influence the sorted import list. -/
theorem sortStrings_eq_of_perm {l₁ l₂ : List String} (h : l₁.Perm l₂) :
    sortStrings l₁ = sortStrings l₂ :=
  List.eq_of_perm_of_sorted ((sortStrings_perm l₁).trans (h.trans (sortStrings_perm l₂).symm))
    (sortStrings_sorted l₁) (sortStrings_sorted l₂)

/-! ### Schema generation (generator/postgres.go, `GenerateSchema`)

The import set is a Go `map[string]bool`; membership insertion is modelled
by a duplicate-free insertion-ordered list (`importBase`), and the
unspecified iteration order of `for imp := range importSet` is an explicit
parameter of `generateSchemaWithOrder` constrained to be a permutation of
that set. -/

/-- `importSet[name] = true`: insert into the set if absent. -/
def insertImport (l : List String) (n : String) : List String :=
  if n ∈ l then l else l ++ [n]

/-- The inner column loop of the first (import-collecting) pass. -/
def collectCols (tname : String) : List Column → List String → Except String (List String)
  | [], acc => Except.ok acc
  | c :: cs, acc =>
    match MapColumnType c with
    | .error e =>
      Except.error ("failed to map column " ++ tname ++ "." ++ c.Name ++ ": " ++ e)
    | .ok dt => collectCols tname cs (insertImport acc dt.Function)

/-- The outer table loop of the first pass. -/
def collectImports : List Table → List String → Except String (List String)
  | [], acc => Except.ok acc
  | t :: ts, acc =>
    match collectCols t.Name t.Columns acc with
    | .error e => Except.error e
    | .ok acc2 => collectImports ts acc2

/-- The import set of a table list, seeded with `pgTable`, as the
insertion-ordered duplicate-free list of its members. -/
def importBase (tables : List Table) : Except String (List String) :=
  collectImports tables ["pgTable"]

/-- The second phase: generate every table in dependency order, wrapping
failures with the table name. -/
def generateTables (options : GeneratorOptions) : List Table → Except String (List GeneratedTable)
  | [] => Except.ok []
  | t :: ts =>
    match GenerateTable t options with
    | .error e => Except.error ("failed to generate table " ++ t.Name ++ ": " ++ e)
    | .ok gt =>
      match generateTables options ts with
      | .error e => Except.error e
      | .ok gts => Except.ok (gt :: gts)

/-- `GenerateSchema`, with the iteration order of the import-set map made
explicit: `importOrder` is the sequence in which `for imp := range importSet`
yields the set's members. -/
def generateSchemaWithOrder (tables : List Table) (options : GeneratorOptions)
    (importOrder : List String) : Except String GeneratedSchema :=
  match importBase tables with
  | .error e => Except.error e
  | .ok _ =>
    let importsLine :=
      "import \x7b " ++ joinSep ", " (sortStrings importOrder) ++
        " \x7d from \x27drizzle-orm/pg-core\x27;"
    match generateTables options (sortTablesByDependencies tables) with
    | .error e => Except.error e
    | .ok gts =>
      Except.ok
        { Imports := [importsLine]
          Tables := gts
          Content :=
            importsLine ++ "\n" ++ "\n" ++
              joinSep "\n" (gts.map (fun g => g.Definition ++ "\n")) }

/-- A list is a possible map-iteration order of the import set of `tables`:
whenever the first pass succeeds with member list `base`, the order
enumerates exactly those members. -/
def ImportOrderOf (tables : List Table) (o : List String) : Prop :=
  ∀ base, importBase tables = Except.ok base → o.Perm base

/-- C8: `GenerateSchema` is deterministic — two runs over the same ordered
tables with the same options produce identical results (same import line,
same table definitions, byte-identical content), even though Go's map
iteration may enumerate the import set in any order: the emitted import list
is sorted, and sorting is canonical on permutations. -/
theorem generateSchema_deterministic (tables : List Table) (options : GeneratorOptions)
    (o₁ o₂ : List String) (h₁ : ImportOrderOf tables o₁) (h₂ : ImportOrderOf tables o₂) :
    generateSchemaWithOrder tables options o₁ = generateSchemaWithOrder tables options o₂ := by
  unfold generateSchemaWithOrder
  cases hb : importBase tables with
  | error e => rfl
  | ok base =>
    have hperm : o₁.Perm o₂ := (h₁ base hb).trans (h₂ base hb).symm
    rw [sortStrings_eq_of_perm hperm]

/-- Witness for C8: a one-table schema whose import set is
`{pgTable, text}`, enumerated in the two possible orders. -/
theorem generateSchema_deterministic_witness :
    ImportOrderOf [⟨"notes", [⟨"body", "TEXT", none, none, none, false, false, none, false, none⟩],
      [], [], [], []⟩] ["pgTable", "text"] ∧
    ImportOrderOf [⟨"notes", [⟨"body", "TEXT", none, none, none, false, false, none, false, none⟩],
      [], [], [], []⟩] ["text", "pgTable"] ∧
    generateSchemaWithOrder
      [⟨"notes", [⟨"body", "TEXT", none, none, none, false, false, none, false, none⟩],
        [], [], [], []⟩] ⟨"camel", "camel", true, "", 2⟩ ["pgTable", "text"] =
    generateSchemaWithOrder
      [⟨"notes", [⟨"body", "TEXT", none, none, none, false, false, none, false, none⟩],
        [], [], [], []⟩] ⟨"camel", "camel", true, "", 2⟩ ["text", "pgTable"] := by
  have h₁ : ImportOrderOf [⟨"notes", [⟨"body", "TEXT", none, none, none, false, false, none,
      false, none⟩], [], [], [], []⟩] ["pgTable", "text"] := by
    intro base hb
    injection hb with hb
    rw [← hb]
    decide
  have h₂ : ImportOrderOf [⟨"notes", [⟨"body", "TEXT", none, none, none, false, false, none,
      false, none⟩], [], [], [], []⟩] ["text", "pgTable"] := by
    intro base hb
    injection hb with hb
    rw [← hb]
    decide
  exact ⟨h₁, h₂, generateSchema_deterministic _ _ _ _ h₁ h₂⟩

/-! ### Statement splitter (parser/postgres.go, `splitStatements`)

`splitStatements` first removes `--` comments with the regular expression
`--.*$` (no multiline flag, so `$` is the end of the whole text: only a
comment on the final line, with no newline after it, is removed), then
scans left to right tracking single/double-quoted strings with a
backslash-escape-aware closing test, splitting on unquoted semicolons and
emitting a final unterminated fragment. -/

/-- RE2 `\s` character class: `[\t\n\f\r ]`. -/
def goSpace (c : Char) : Bool :=
  c = ' ' || c = '\t' || c = '\n' || c = Char.ofNat 12 || c = '\r'

/-- RE2 `\w` character class: `[0-9A-Za-z_]`. -/
def wordChar (c : Char) : Bool := c.isAlpha || c.isDigit || c = '_'

/-- Go `unicode.IsSpace` over the ASCII range, for `strings.TrimSpace`. -/
def goTrimChar (c : Char) : Bool :=
  c = ' ' || c = '\t' || c = '\n' || c = Char.ofNat 11 || c = Char.ofNat 12 || c = '\r'

/-- Model of Go `strings.TrimSpace` on the character list. -/
def trimSpaceL (cs : List Char) : List Char :=
  ((cs.dropWhile goTrimChar).reverse.dropWhile goTrimChar).reverse

/-- Model of Go `strings.TrimSpace`. -/
def trimSpace (s : String) : String := String.mk (trimSpaceL s.data)

/-- The effect of `commentRegex.ReplaceAllString(content, "")` with pattern
`--.*$`: scanning for the leftmost `--` that is followed by no newline (so
`.*` reaches the end anchor), and deleting from it to the end. -/
def dashCommentAhead : List Char → Bool
  | c2 :: rest2 => c2 = '-' && rest2.all (fun x => x ≠ '\n')
  | [] => false

def stripComment : List Char → List Char
  | [] => []
  | c :: rest =>
    if c = '-' && dashCommentAhead rest then []
    else c :: stripComment rest

/-- The character scan of `splitStatements`: `inStr` is `none` outside
string literals and `some quoteChar` inside, `prev` is the previous input
character (`content[i-1]`), `current` the statement being accumulated and
`acc` the emitted statements. -/
def splitScan : List Char → Option Char → Option Char → List Char → List (List Char) →
    List (List Char)
  | [], _, _, current, acc =>
    if trimSpaceL current ≠ [] then acc ++ [current] else acc
  | c :: rest, inStr, prev, current, acc =>
    match inStr with
    | none =>
      if c = squote ∨ c = dquote then
        splitScan rest (some c) (some c) (current ++ [c]) acc
      else if c = ';' then
        if trimSpaceL current ≠ [] then
          splitScan rest none (some c) [] (acc ++ [current])
        else
          splitScan rest none (some c) [] acc
      else
        splitScan rest none (some c) (current ++ [c]) acc
    | some q =>
      if c = q ∧ (prev = none ∨ prev ≠ some bslash) then
        splitScan rest none (some c) (current ++ [c]) acc
      else
        splitScan rest (some q) (some c) (current ++ [c]) acc

/-- `splitStatements` from parser/postgres.go. -/
def splitStatements (content : String) : List String :=
  (splitScan (stripComment content.data) none none [] []).map String.mk

/-- C5 counterexample: a semicolon inside a `--` line comment that is not on
the final line IS treated as a statement boundary — the comment-removal
regex `--.*$` anchors at the end of the whole text, so it leaves this
comment in place and the scan (which does not track line comments) splits
inside it.  The claim requires the single statement `"-- x;\nA"`. -/
theorem splitStatements_comment_cex :
    splitStatements "-- x;\nA;" = ["-- x", "\nA"] ∧
      splitStatements "-- x;\nA;" ≠ ["-- x;\nA"] := by
  constructor
  · decide
  · decide

theorem mem_dropWhile_of_not {α : Type} {p : α → Bool} :
    ∀ {l : List α} {c : α}, c ∈ l → p c = false → c ∈ l.dropWhile p := by
  intro l
  induction l with
  | nil => intro c h; cases h
  | cons x xs ih =>
    intro c hmem hpc
    rcases List.mem_cons.mp hmem with rfl | hmem
    · rw [List.dropWhile_cons, hpc]
      simp
    · rw [List.dropWhile_cons]
      by_cases hx : p x = true
      · rw [hx]
        simpa using ih hmem hpc
      · rw [eq_false_of_ne_true hx]
        simp only [Bool.false_eq_true, if_false]
        exact List.mem_cons_of_mem x hmem

/-- A list containing a non-trimmable character does not trim to empty. -/
theorem trimSpaceL_ne_nil_of_mem {cs : List Char} {c : Char}
    (hmem : c ∈ cs) (hc : goTrimChar c = false) : trimSpaceL cs ≠ [] := by
  intro hnil
  unfold trimSpaceL at hnil
  rw [List.reverse_eq_nil_iff, List.dropWhile_eq_nil_iff] at hnil
  have h1 : c ∈ cs.dropWhile goTrimChar := mem_dropWhile_of_not hmem hc
  have h2 : c ∈ (cs.dropWhile goTrimChar).reverse := List.mem_reverse.mpr h1
  exact absurd (hnil c h2) (by rw [hc]; simp)

/-- If no character is a dash, comment removal is the identity. -/
theorem stripComment_of_no_dash :
    ∀ (cs : List Char), (∀ c ∈ cs, c ≠ '-') → stripComment cs = cs := by
  intro cs
  induction cs with
  | nil => intro _; rfl
  | cons c rest ih =>
    intro h
    have hc : c ≠ '-' := h c (List.mem_cons_self c rest)
    unfold stripComment
    rw [if_neg (by simp [hc]), ih (fun x hx => h x (List.mem_cons_of_mem c hx))]

theorem splitScan_openQuote (rest : List Char) (prev : Option Char) (current : List Char)
    (acc : List (List Char)) (c : Char) (hc : c = squote ∨ c = dquote) :
    splitScan (c :: rest) none prev current acc =
      splitScan rest (some c) (some c) (current ++ [c]) acc := by
  simp only [splitScan]
  rw [if_pos hc]

theorem splitScan_close (rest : List Char) (prev : Option Char) (current : List Char)
    (acc : List (List Char)) (qc : Char) (hprev : prev = none ∨ prev ≠ some bslash) :
    splitScan (qc :: rest) (some qc) prev current acc =
      splitScan rest none (some qc) (current ++ [qc]) acc := by
  simp only [splitScan]
  rw [if_pos ⟨trivial, hprev⟩]

theorem splitScan_semi (rest : List Char) (prev : Option Char) (current : List Char)
    (acc : List (List Char)) (hne : trimSpaceL current ≠ []) :
    splitScan (';' :: rest) none prev current acc =
      splitScan rest none (some ';') [] (acc ++ [current]) := by
  simp only [splitScan]
  rw [if_pos hne]
  simp +decide

theorem splitScan_plainChar (rest : List Char) (prev : Option Char) (current : List Char)
    (acc : List (List Char)) (c : Char)
    (h1 : ¬(c = squote ∨ c = dquote)) (h2 : c ≠ ';') :
    splitScan (c :: rest) none prev current acc =
      splitScan rest none (some c) (current ++ [c]) acc := by
  simp only [splitScan]
  rw [if_neg h1, if_neg h2]

theorem splitScan_strChar (rest : List Char) (prev : Option Char) (current : List Char)
    (acc : List (List Char)) (qc c : Char)
    (h : ¬(c = qc ∧ (prev = none ∨ prev ≠ some bslash))) :
    splitScan (c :: rest) (some qc) prev current acc =
      splitScan rest (some qc) (some c) (current ++ [c]) acc := by
  simp only [splitScan]
  rw [if_neg h]

theorem splitScan_plain :
    ∀ (p rest : List Char) (prev : Option Char) (current : List Char) (acc : List (List Char)),
      (∀ c ∈ p, c ≠ ';' ∧ c ≠ squote ∧ c ≠ dquote) →
      ∃ prev', splitScan (p ++ rest) none prev current acc =
        splitScan rest none prev' (current ++ p) acc := by
  intro p
  induction p with
  | nil => intro rest prev current acc _; exact ⟨prev, by simp⟩
  | cons c p ih =>
    intro rest prev current acc h
    obtain ⟨h1, h2, h3⟩ := h c (List.mem_cons_self c p)
    rw [List.cons_append,
      splitScan_plainChar (p ++ rest) prev current acc c (by tauto) h1]
    obtain ⟨prev', he⟩ := ih rest (some c) (current ++ [c]) acc
      (fun x hx => h x (List.mem_cons_of_mem c hx))
    exact ⟨prev', by rw [he, List.append_assoc, List.singleton_append]⟩

theorem splitScan_inString :
    ∀ (q : List Char) (qc : Char) (rest : List Char) (prev : Option Char)
      (current : List Char) (acc : List (List Char)),
      (∀ c ∈ q, c ≠ qc ∧ c ≠ bslash) → prev ≠ some bslash →
      ∃ prev', prev' ≠ some bslash ∧
        splitScan (q ++ rest) (some qc) prev current acc =
          splitScan rest (some qc) prev' (current ++ q) acc := by
  intro q
  induction q with
  | nil => intro qc rest prev current acc _ hprev; exact ⟨prev, hprev, by simp⟩
  | cons c q ih =>
    intro qc rest prev current acc h hprev
    obtain ⟨h1, h2⟩ := h c (List.mem_cons_self c q)
    rw [List.cons_append,
      splitScan_strChar (q ++ rest) prev current acc qc c (by tauto)]
    obtain ⟨prev', hb, he⟩ := ih qc rest (some c) (current ++ [c]) acc
      (fun x hx => h x (List.mem_cons_of_mem c hx))
      (by intro hx; injection hx with hx; exact h2 hx)
    exact ⟨prev', hb, by rw [he, List.append_assoc, List.singleton_append]⟩

theorem splitScan_final :
    ∀ (r : List Char) (prev : Option Char) (current : List Char) (acc : List (List Char)),
      (∀ c ∈ r, c ≠ ';' ∧ c ≠ squote ∧ c ≠ dquote) →
      splitScan r none prev current acc =
        if trimSpaceL (current ++ r) ≠ [] then acc ++ [current ++ r] else acc := by
  intro r
  induction r with
  | nil => intro prev current acc _; simp [splitScan]
  | cons c r ih =>
    intro prev current acc h
    obtain ⟨h1, h2, h3⟩ := h c (List.mem_cons_self c r)
    rw [splitScan_plainChar r prev current acc c (by tauto) h1,
      ih (some c) (current ++ [c]) acc (fun x hx => h x (List.mem_cons_of_mem c hx)),
      List.append_assoc, List.singleton_append]

/-- C5 amended: an unquoted terminator is a boundary, a terminator inside a
single- or double-quoted literal (with backslash-escape-aware closing) is
not, and a final fragment with no trailing terminator is still emitted; but
line comments are only stripped when they terminate the input (the removal
regex anchors at end of text), so a semicolon in any other line comment IS a
boundary (see the counterexample).  Here the input has no dash characters,
so comment handling is inert, the `;` inside the quoted literal `q` does not
split, and the trailing fragment `r` is emitted without a terminator. -/
theorem splitStatements_quoted_terminator (p q r : List Char) (qc : Char)
    (hqc : qc = squote ∨ qc = dquote)
    (hp : ∀ c ∈ p, c ≠ ';' ∧ c ≠ squote ∧ c ≠ dquote ∧ c ≠ '-')
    (hq : ∀ c ∈ q, c ≠ qc ∧ c ≠ bslash ∧ c ≠ '-')
    (hr : ∀ c ∈ r, c ≠ ';' ∧ c ≠ squote ∧ c ≠ dquote ∧ c ≠ '-')
    (hrne : trimSpaceL r ≠ []) :
    splitStatements (String.mk (p ++ qc :: q ++ qc :: ';' :: r)) =
      [String.mk (p ++ qc :: q ++ [qc]), String.mk r] := by
  unfold splitStatements
  have hqcd : qc ≠ '-' := by rcases hqc with rfl | rfl <;> decide
  have hnodash : ∀ c ∈ p ++ qc :: q ++ qc :: ';' :: r, c ≠ '-' := by
    intro c hc
    rcases List.mem_append.mp hc with hc | hc
    · rcases List.mem_append.mp hc with hc | hc
      · exact (hp c hc).2.2.2
      · rcases List.mem_cons.mp hc with rfl | hc
        · exact hqcd
        · exact (hq c hc).2.2
    · rcases List.mem_cons.mp hc with rfl | hc
      · exact hqcd
      · rcases List.mem_cons.mp hc with rfl | hc
        · decide
        · exact (hr c hc).2.2.2
  show (splitScan (stripComment (p ++ qc :: q ++ qc :: ';' :: r)) none none [] []).map
      String.mk = _
  rw [stripComment_of_no_dash _ hnodash]
  rw [show p ++ qc :: q ++ qc :: ';' :: r = p ++ (qc :: (q ++ (qc :: (';' :: r)))) from by
    simp]
  obtain ⟨prev1, e1⟩ := splitScan_plain p (qc :: (q ++ (qc :: (';' :: r)))) none [] []
    (fun c hc => ⟨(hp c hc).1, (hp c hc).2.1, (hp c hc).2.2.1⟩)
  rw [e1, List.nil_append, splitScan_openQuote _ prev1 p [] qc hqc]
  obtain ⟨prev2, hb2, e2⟩ := splitScan_inString q qc (qc :: ';' :: r) (some qc) (p ++ [qc]) []
    (fun c hc => ⟨(hq c hc).1, (hq c hc).2.1⟩)
    (by intro hx; injection hx with hx; exact absurd hx (by rcases hqc with rfl | rfl <;> decide))
  rw [e2, splitScan_close (';' :: r) prev2 (p ++ [qc] ++ q) [] qc (Or.inr hb2)]
  have hqctrim : goTrimChar qc = false := by rcases hqc with rfl | rfl <;> decide
  rw [splitScan_semi r (some qc) (p ++ [qc] ++ q ++ [qc]) []
    (trimSpaceL_ne_nil_of_mem (by simp) hqctrim)]
  rw [splitScan_final r (some ';') [] _ (fun c hc => ⟨(hr c hc).1, (hr c hc).2.1, (hr c hc).2.2.1⟩)]
  rw [List.nil_append, if_pos hrne]
  simp

/-- Witness for the amended C5 theorem: the input
`CREATE x ('a;b';SELECT 1)`-style fragment `A 'x;y';B` splits into the
quoted statement and the trailing fragment. -/
theorem splitStatements_quoted_terminator_witness :
    splitStatements "A \x27x;y\x27;B" = ["A \x27x;y\x27", "B"] := by
  have h := splitStatements_quoted_terminator
    ['A', ' '] ['x', ';', 'y'] ['B'] squote (Or.inl rfl)
    (by decide) (by decide) (by decide) (by decide)
  exact h

/-! ### Table extractor (parser/postgres.go, `isCreateTableStatement` and
`parseCreateTableRegex`)

The Go regular expressions are embedded as deterministic character
matchers.  `matchCIc pat cs` matches the case-insensitive literal `pat`
(given upper-case) returning the consumed text and the remainder;
`spaces1c` is `\s+` (greedy, no backtracking is ever needed because `\s`,
`\w` and the literals that follow each repetition are disjoint);
`munchWordc` is the greedy `(\w+)` capture.  Leftmost matching of an
unanchored pattern is a scan trying every start position left to right. -/

def matchCIc : List Char → List Char → Option (List Char × List Char)
  | [], cs => some ([], cs)
  | _ :: _, [] => none
  | p :: ps, c :: cs =>
    if c.toUpper = p then (matchCIc ps cs).map (fun r => (c :: r.1, r.2)) else none

def spaces1c : List Char → Option (List Char × List Char)
  | [] => none
  | c :: rest =>
    if goSpace c then some (c :: rest.takeWhile goSpace, rest.dropWhile goSpace) else none

def munchWordc (cs : List Char) : Option (List Char × List Char) :=
  let w := cs.takeWhile wordChar
  if w = [] then none else some (w, cs.dropWhile wordChar)

/-- Try `CREATE\s+TABLE\s+(\w+)\s*\(` at the current position; on success
return the captured name and the text after the opening parenthesis. -/
def matchCreateAt (cs : List Char) : Option (List Char × List Char) :=
  match matchCIc "CREATE".data cs with
  | none => none
  | some (_, r1) =>
    match spaces1c r1 with
    | none => none
    | some (_, r2) =>
      match matchCIc "TABLE".data r2 with
      | none => none
      | some (_, r3) =>
        match spaces1c r3 with
        | none => none
        | some (_, r4) =>
          match munchWordc r4 with
          | none => none
          | some (name, r5) =>
            match r5.dropWhile goSpace with
            | '(' :: rest => some (name, rest)
            | _ => none

/-- Leftmost match of the create-table head pattern. -/
def findCreate : List Char → Option (List Char × List Char)
  | [] => none
  | c :: cs =>
    match matchCreateAt (c :: cs) with
    | some r => some r
    | none => findCreate cs

/-- The `tableNameRegex` capture of `parseCreateTableRegex`. -/
def extractTableName (stmt : String) : Option String :=
  (findCreate stmt.data).map (fun r => String.mk r.1)

/-- The `(.*)` capture of `bodyRegex`: the text after the head's `(` must
decompose (uniquely) as `body ++ ")" ++ optional ";" ++ whitespace`; the
greedy `(?s).*` takes everything up to that closing parenthesis. -/
def bodyFromRest (rest : List Char) : Option (List Char) :=
  let r1 := rest.reverse.dropWhile goSpace
  let r2 := match r1 with
    | ';' :: t => t
    | _ => r1
  match r2 with
  | ')' :: t => some t.reverse
  | _ => none

/-- The `bodyRegex` capture of `parseCreateTableRegex`. -/
def extractTableBody (stmt : String) : Option String :=
  match findCreate stmt.data with
  | none => none
  | some (_, rest) =>
    match bodyFromRest rest with
    | none => none
    | some body => some (String.mk body)

/-- `isCreateTableStatement`: the anchored pattern
`(?i)^\s*CREATE\s+TABLE\s+`. -/
def isCreateTableStatement (stmt : String) : Bool :=
  (match matchCIc "CREATE".data (stmt.data.dropWhile goSpace) with
   | none => none
   | some (_, r1) =>
     match spaces1c r1 with
     | none => none
     | some (_, r2) =>
       match matchCIc "TABLE".data r2 with
       | none => none
       | some (_, r3) => spaces1c r3).isSome

/-! ### Clause parser (parser/postgres.go, `splitTableItems`,
`parseColumnRegex`, `isConstraint`, `parseConstraint`, `parseTableBody`) -/

/-- The scan of `splitTableItems`: split a table body on top-level commas,
tracking parenthesis depth (a Go `int`, which may go negative) and quoted
strings as in the statement splitter; each emitted item is trimmed. -/
def splitItemsScan : List Char → Int → Option Char → Option Char → List Char →
    List (List Char) → List (List Char)
  | [], _, _, _, current, items =>
    if trimSpaceL current ≠ [] then items ++ [trimSpaceL current] else items
  | c :: rest, depth, inStr, prev, current, items =>
    match inStr with
    | none =>
      if c = squote ∨ c = dquote then
        splitItemsScan rest depth (some c) (some c) (current ++ [c]) items
      else if c = '(' then
        splitItemsScan rest (depth + 1) none (some c) (current ++ [c]) items
      else if c = ')' then
        splitItemsScan rest (depth - 1) none (some c) (current ++ [c]) items
      else if c = ',' ∧ depth = 0 then
        if trimSpaceL current ≠ [] then
          splitItemsScan rest depth none (some c) [] (items ++ [trimSpaceL current])
        else
          splitItemsScan rest depth none (some c) [] items
      else
        splitItemsScan rest depth none (some c) (current ++ [c]) items
    | some q =>
      if c = q ∧ (prev = none ∨ prev ≠ some bslash) then
        splitItemsScan rest depth none (some c) (current ++ [c]) items
      else
        splitItemsScan rest depth (some q) (some c) (current ++ [c]) items

/-- `splitTableItems`. -/
def splitTableItems (body : List Char) : List (List Char) :=
  splitItemsScan body 0 none none [] []

/-- One repetition of the column-type pattern
`[A-Z]+(?:\([^)]*\))?(?:\s+WITH\s+TIME\s+ZONE)?` (case-insensitive). -/
def munchTypeRep (cs : List Char) : Option (List Char × List Char) :=
  let letters := cs.takeWhile Char.isAlpha
  if letters = [] then none
  else
    let r1 := cs.dropWhile Char.isAlpha
    let parenPart : List Char × List Char :=
      match r1 with
      | '(' :: t =>
        match t.dropWhile (fun c => c ≠ ')') with
        | ')' :: t2 => ('(' :: t.takeWhile (fun c => c ≠ ')') ++ [')'], t2)
        | _ => ([], r1)
      | _ => ([], r1)
    let wtz : Option (List Char × List Char) :=
      match spaces1c parenPart.2 with
      | none => none
      | some (s1, w1) =>
        match matchCIc "WITH".data w1 with
        | none => none
        | some (w, w2) =>
          match spaces1c w2 with
          | none => none
          | some (s2, w3) =>
            match matchCIc "TIME".data w3 with
            | none => none
            | some (t, w4) =>
              match spaces1c w4 with
              | none => none
              | some (s3, w5) =>
                match matchCIc "ZONE".data w5 with
                | none => none
                | some (z, w6) => some (s1 ++ w ++ s2 ++ t ++ s3 ++ z, w6)
    match wtz with
    | some (wt, r2) => some (letters ++ parenPart.1 ++ wt, r2)
    | none => some (letters ++ parenPart.1, parenPart.2)

/-- The `+` repetition of the type pattern (each repetition consumes at
least one character, so the fuel `cs.length + 1` is never exhausted). -/
def munchTypeReps : Nat → List Char → Option (List Char × List Char)
  | 0, _ => none
  | fuel + 1, cs =>
    match munchTypeRep cs with
    | none => none
    | some (tok, rest) =>
      match munchTypeReps fuel rest with
      | some (tok2, rest2) => some (tok ++ tok2, rest2)
      | none => some (tok, rest)

/-- The full `columnRegex`
`(?i)^\s*(\w+)\s+((?:[A-Z]+(?:\([^)]*\))?(?:\s+WITH\s+TIME\s+ZONE)?)+)\s*(.*)$`:
without a multiline or dot-all flag, the trailing `(.*)$` must consume
newline-free text to the end of the clause. -/
def matchColumnRegex (cs : List Char) : Option (List Char × List Char × List Char) :=
  match munchWordc (cs.dropWhile goSpace) with
  | none => none
  | some (name, r1) =>
    match spaces1c r1 with
    | none => none
    | some (_, r2) =>
      match munchTypeReps (r2.length + 1) r2 with
      | none => none
      | some (typ, r3) =>
        let tailPart := r3.dropWhile goSpace
        if tailPart.all (fun c => c ≠ '\n') then some (name, typ, tailPart) else none

/-- One position of the `typeRegex` pattern
`([A-Z]+)\((\d+)(?:,\s*(\d+))?\)` over the (already upper-cased) type text;
captures are (letters, digits, optional digits). -/
def matchTypeParenAt (cs : List Char) : Option (List Char × List Char × List Char) :=
  let letters := cs.takeWhile (fun c => 'A' ≤ c ∧ c ≤ 'Z')
  if letters = [] then none
  else
    match cs.dropWhile (fun c => 'A' ≤ c ∧ c ≤ 'Z') with
    | '(' :: t =>
      let d1 := t.takeWhile Char.isDigit
      if d1 = [] then none
      else
        match t.dropWhile Char.isDigit with
        | ')' :: _ => some (letters, d1, [])
        | ',' :: u =>
          let u1 := u.dropWhile goSpace
          let d2 := u1.takeWhile Char.isDigit
          if d2 = [] then none
          else
            match u1.dropWhile Char.isDigit with
            | ')' :: _ => some (letters, d1, d2)
            | _ => none
        | _ => none
    | _ => none

/-- Leftmost match of `typeRegex`. -/
def findTypeParen : List Char → Option (List Char × List Char × List Char)
  | [] => none
  | c :: cs =>
    match matchTypeParenAt (c :: cs) with
    | some r => some r
    | none => findTypeParen cs

/-- The `(?:\s+[^,\s]+)*` continuation of the DEFAULT-value capture. -/
def defaultExtra : Nat → List Char → List Char
  | 0, _ => []
  | fuel + 1, cs =>
    match spaces1c cs with
    | none => []
    | some (sp, r1) =>
      let tok := r1.takeWhile (fun c => ¬goSpace c ∧ c ≠ ',')
      if tok = [] then []
      else sp ++ tok ++ defaultExtra fuel (r1.dropWhile (fun c => ¬goSpace c ∧ c ≠ ','))

/-- One position of the `defaultRegex` pattern
`(?i)DEFAULT\s+([^,\s]+(?:\s+[^,\s]+)*)`. -/
def matchDefaultAt (cs : List Char) : Option (List Char) :=
  match matchCIc "DEFAULT".data cs with
  | none => none
  | some (_, r1) =>
    match spaces1c r1 with
    | none => none
    | some (_, r2) =>
      let tok := r2.takeWhile (fun c => ¬goSpace c ∧ c ≠ ',')
      if tok = [] then none
      else some (tok ++ defaultExtra r2.length (r2.dropWhile (fun c => ¬goSpace c ∧ c ≠ ',')))

/-- Leftmost match of `defaultRegex`. -/
def findDefault : List Char → Option (List Char)
  | [] => none
  | c :: cs =>
    match matchDefaultAt (c :: cs) with
    | some r => some r
    | none => findDefault cs

/-- `parseColumnRegex` from parser/postgres.go. -/
def parseColumnRegex (columnDef : String) (_options : ParseOptions) : Except String Column :=
  match matchColumnRegex columnDef.data with
  | none => Except.error ("could not parse column definition: " ++ columnDef)
  | some (name, typ, tailPart) =>
    let type0 : List Char := (trimSpaceL typ).map Char.toUpper
    let withLen : String × Option Int × Option Int :=
      if ('(' : Char) ∈ type0 then
        match findTypeParen type0 with
        | some (letters, d1, d2) =>
          let len : Option Int := goAtoi (String.mk d1)
          let sc : Option Int := if d2 ≠ [] then goAtoi (String.mk d2) else none
          (String.mk letters, len, sc)
        | none => (String.mk type0, none, none)
      else (String.mk type0, none, none)
    let autoInc := withLen.1 = "BIGSERIAL" ∨ withLen.1 = "SERIAL" ∨ withLen.1 = "SMALLSERIAL"
    let constraintsU : List Char := tailPart.map Char.toUpper
    let defaultVal : Option String :=
      match findDefault tailPart with
      | some cap => some (String.mk (trimSpaceL cap))
      | none => none
    Except.ok
      { Name := String.mk name
        «Type» := withLen.1
        Length := withLen.2.1
        Scale := withLen.2.2
        NotNull := infixCheck "NOT NULL".data constraintsU
        Unique := infixCheck "UNIQUE".data constraintsU
        DefaultValue := defaultVal
        AutoIncrement := autoInc }

/-- `isConstraint` from parser/postgres.go. -/
def isConstraint (item : String) : Bool :=
  let u := String.mk ((trimSpaceL item.data).map Char.toUpper)
  hasPrefixStr u "CONSTRAINT" || hasPrefixStr u "PRIMARY KEY" ||
    hasPrefixStr u "FOREIGN KEY" || hasPrefixStr u "CHECK" || hasPrefixStr u "UNIQUE"

/-- The core of `pkRegex` at one position, after the optional
`CONSTRAINT\s+\w+\s+` prefix has (or has not) been consumed. -/
def pkCoreAt (cs : List Char) : Option (List Char) :=
  match matchCIc "PRIMARY".data cs with
  | none => none
  | some (_, r1) =>
    match spaces1c r1 with
    | none => none
    | some (_, r2) =>
      match matchCIc "KEY".data r2 with
      | none => none
      | some (_, r3) =>
        match r3.dropWhile goSpace with
        | '(' :: t =>
          let inner := t.takeWhile (fun c => c ≠ ')')
          if inner = [] then none
          else
            match t.dropWhile (fun c => c ≠ ')') with
            | ')' :: _ => some inner
            | _ => none
        | _ => none

/-- One position of `pkRegex`
`(?i)(?:CONSTRAINT\s+\w+\s+)?PRIMARY\s+KEY\s*\(([^)]+)\)`: the optional
prefix group is tried first (greedy `?`). -/
def pkMatchAt (cs : List Char) : Option (List Char) :=
  match (match matchCIc "CONSTRAINT".data cs with
    | none => none
    | some (_, r1) =>
      match spaces1c r1 with
      | none => none
      | some (_, r2) =>
        match munchWordc r2 with
        | none => none
        | some (_, r3) =>
          match spaces1c r3 with
          | none => none
          | some (_, r4) => pkCoreAt r4) with
  | some inner => some inner
  | none => pkCoreAt cs

/-- Leftmost match of `pkRegex`. -/
def findPK : List Char → Option (List Char)
  | [] => none
  | c :: cs =>
    match pkMatchAt (c :: cs) with
    | some r => some r
    | none => findPK cs

/-- One position of `fkRegex`
`(?i)CONSTRAINT\s+(\w+)\s+FOREIGN\s+KEY\s*\(([^)]+)\)\s+REFERENCES\s+(\w+)\s*\(([^)]+)\)`. -/
def fkMatchAt (cs : List Char) : Option (List Char × List Char × List Char × List Char) :=
  match matchCIc "CONSTRAINT".data cs with
  | none => none
  | some (_, r1) =>
    match spaces1c r1 with
    | none => none
    | some (_, r2) =>
      match munchWordc r2 with
      | none => none
      | some (name, r3) =>
        match spaces1c r3 with
        | none => none
        | some (_, r4) =>
          match matchCIc "FOREIGN".data r4 with
          | none => none
          | some (_, r5) =>
            match spaces1c r5 with
            | none => none
            | some (_, r6) =>
              match matchCIc "KEY".data r6 with
              | none => none
              | some (_, r7) =>
                match r7.dropWhile goSpace with
                | '(' :: t =>
                  let cols := t.takeWhile (fun c => c ≠ ')')
                  if cols = [] then none
                  else
                    match t.dropWhile (fun c => c ≠ ')') with
                    | ')' :: r8 =>
                      match spaces1c r8 with
                      | none => none
                      | some (_, r9) =>
                        match matchCIc "REFERENCES".data r9 with
                        | none => none
                        | some (_, r10) =>
                          match spaces1c r10 with
                          | none => none
                          | some (_, r11) =>
                            match munchWordc r11 with
                            | none => none
                            | some (rtab, r12) =>
                              match r12.dropWhile goSpace with
                              | '(' :: t2 =>
                                let rcols := t2.takeWhile (fun c => c ≠ ')')
                                if rcols = [] then none
                                else
                                  match t2.dropWhile (fun c => c ≠ ')') with
                                  | ')' :: _ => some (name, cols, rtab, rcols)
                                  | _ => none
                              | _ => none
                    | _ => none
                | _ => none

/-- Leftmost match of `fkRegex`. -/
def findFK : List Char → Option (List Char × List Char × List Char × List Char)
  | [] => none
  | c :: cs =>
    match fkMatchAt (c :: cs) with
    | some r => some r
    | none => findFK cs

/-- Split a comma-separated capture and trim each element
(`strings.Split` + `strings.TrimSpace`, for primary-key columns). -/
def splitCommaTrim (cs : List Char) : List String :=
  (splitOnChar ',' cs).map (fun w => String.mk (trimSpaceL w))

/-- Split a comma-separated capture after deleting spaces
(`strings.Split(strings.ReplaceAll(s, " ", ""), ",")`, for foreign keys). -/
def splitCommaNoSpace (cs : List Char) : List String :=
  (splitOnChar ',' (cs.filter (fun c => c ≠ ' '))).map String.mk

/-- `parseConstraint` from parser/postgres.go (the `table` is threaded
instead of mutated). -/
def parseConstraint (table : Table) (constraintDef : String) (options : ParseOptions) :
    Except String Table :=
  let cu := String.mk ((trimSpaceL constraintDef.data).map Char.toUpper)
  if containsSub cu "PRIMARY KEY" then
    match findPK constraintDef.data with
    | some inner =>
      Except.ok { table with PrimaryKey := table.PrimaryKey ++ splitCommaTrim inner }
    | none => Except.ok table
  else if containsSub cu "FOREIGN KEY" then
    match findFK constraintDef.data with
    | some (name, cols, rtab, rcols) =>
      Except.ok { table with ForeignKeys := table.ForeignKeys ++
        [{ Name := String.mk name
           Columns := splitCommaNoSpace cols
           ReferencedTable := String.mk rtab
           ReferencedColumns := splitCommaNoSpace rcols }] }
    | none => Except.ok table
  else if options.IgnoreUnsupported then Except.ok table
  else Except.error ("unsupported constraint: " ++ constraintDef)

/-- The item loop of `parseTableBody`. -/
def parseItems (options : ParseOptions) : List (List Char) → Table → Except String Table
  | [], table => Except.ok table
  | item :: rest, table =>
    let itemT := trimSpaceL item
    if itemT = [] then parseItems options rest table
    else if isConstraint (String.mk itemT) then
      match parseConstraint table (String.mk itemT) options with
      | .ok table2 => parseItems options rest table2
      | .error e =>
        if options.IgnoreUnsupported then parseItems options rest table
        else Except.error e
    else
      match parseColumnRegex (String.mk itemT) options with
      | .error e =>
        if options.IgnoreUnsupported then parseItems options rest table
        else Except.error e
      | .ok column => parseItems options rest { table with Columns := table.Columns ++ [column] }

/-- `parseTableBody`. -/
def parseTableBody (table : Table) (body : String) (options : ParseOptions) :
    Except String Table :=
  parseItems options (splitTableItems body.data) table

/-- `parseCreateTableRegex`. -/
def parseCreateTableRegex (stmt : String) (options : ParseOptions) : Except String Table :=
  match extractTableName stmt with
  | none => Except.error "could not extract table name from statement"
  | some name =>
    match extractTableBody stmt with
    | none => Except.error "could not extract table body from statement"
    | some body =>
      match parseTableBody { Name := name } body options with
      | .error e => Except.error ("failed to parse table body: " ++ e)
      | .ok table => Except.ok table

/-- The per-statement cleaning of `ParseSQL`: trim, drop the statement if
empty, remove comment-only and blank lines, drop if nothing remains. -/
def cleanStatement (stmt : String) : Option String :=
  let t := trimSpaceL stmt.data
  if t = [] then none
  else
    let cleanLines := (splitOnChar '\n' t).filter
      (fun line => ¬hasPrefixStr (String.mk (trimSpaceL line)) "--" ∧ trimSpaceL line ≠ [])
    if cleanLines = [] then none
    else some (String.mk (List.intercalate ['\n'] cleanLines))

/-- The statement loop of `ParseSQL`. -/
def parseStatements (options : ParseOptions) : List String → ParseResult → Except String ParseResult
  | [], result => Except.ok result
  | stmt :: rest, result =>
    match cleanStatement stmt with
    | none => parseStatements options rest result
    | some s =>
      if isCreateTableStatement s then
        match parseCreateTableRegex s options with
        | .error e =>
          if options.IgnoreUnsupported then
            parseStatements options rest { result with Errors := result.Errors ++ [e] }
          else Except.error e
        | .ok table =>
          parseStatements options rest { result with Tables := result.Tables ++ [table] }
      else parseStatements options rest result

/-- `ParseSQL` from parser/postgres.go. -/
def ParseSQL (content : String) (options : ParseOptions) : Except String ParseResult :=
  parseStatements options (splitStatements content) { Tables := [], Errors := [] }

/-! ### Lenient-mode error policy (C2, C10) -/

/-- The diagnostic a statement contributes to `ParseResult.Errors` under
lenient mode: only a recognized CREATE TABLE statement whose structural
parse fails contributes one. -/
def structuralErrorOf (options : ParseOptions) (stmt : String) : Option String :=
  match cleanStatement stmt with
  | none => none
  | some s =>
    if isCreateTableStatement s then
      match parseCreateTableRegex s options with
      | .error e => some e
      | .ok _ => none
    else none

theorem parseConstraint_lenient (table : Table) (c : String) (options : ParseOptions)
    (h : options.IgnoreUnsupported = true) :
    ∃ t2, parseConstraint table c options = Except.ok t2 := by
  simp only [parseConstraint]
  by_cases h1 : containsSub (String.mk ((trimSpaceL c.data).map Char.toUpper)) "PRIMARY KEY" = true
  · rw [if_pos h1]
    cases findPK c.data <;> exact ⟨_, rfl⟩
  · rw [if_neg h1]
    by_cases h2 : containsSub (String.mk ((trimSpaceL c.data).map Char.toUpper)) "FOREIGN KEY" = true
    · rw [if_pos h2]
      cases findFK c.data with
      | none => exact ⟨_, rfl⟩
      | some r => exact ⟨_, rfl⟩
    · rw [if_neg h2, if_pos h]
      exact ⟨_, rfl⟩

theorem parseItems_lenient (options : ParseOptions) (h : options.IgnoreUnsupported = true) :
    ∀ (items : List (List Char)) (table : Table),
      ∃ t2, parseItems options items table = Except.ok t2 := by
  intro items
  induction items with
  | nil => intro table; exact ⟨table, rfl⟩
  | cons item rest ih =>
    intro table
    simp only [parseItems]
    by_cases hempty : trimSpaceL item = []
    · rw [if_pos hempty]
      exact ih table
    · rw [if_neg hempty]
      by_cases hcon : isConstraint (String.mk (trimSpaceL item)) = true
      · rw [if_pos hcon]
        obtain ⟨t2, ht2⟩ := parseConstraint_lenient table (String.mk (trimSpaceL item)) options h
        rw [ht2]
        exact ih t2
      · rw [if_neg hcon]
        cases hcol : parseColumnRegex (String.mk (trimSpaceL item)) options with
        | error e =>
          show ∃ t2, (if options.IgnoreUnsupported = true then parseItems options rest table
            else Except.error e) = Except.ok t2
          rw [if_pos h]
          exact ih table
        | ok column =>
          exact ih _

theorem parseTableBody_lenient (table : Table) (body : String) (options : ParseOptions)
    (h : options.IgnoreUnsupported = true) :
    ∃ t2, parseTableBody table body options = Except.ok t2 :=
  parseItems_lenient options h (splitTableItems body.data) table

theorem parseStatements_lenient_errors (options : ParseOptions)
    (h : options.IgnoreUnsupported = true) :
    ∀ (stmts : List String) (result : ParseResult),
      ∃ r, parseStatements options stmts result = Except.ok r ∧
        r.Errors = result.Errors ++ stmts.filterMap (structuralErrorOf options) := by
  intro stmts
  induction stmts with
  | nil => intro result; exact ⟨result, rfl, by simp⟩
  | cons stmt rest ih =>
    intro result
    simp only [parseStatements]
    cases hclean : cleanStatement stmt with
    | none =>
      obtain ⟨r, hr, he⟩ := ih result
      exact ⟨r, hr, by
        rw [he, List.filterMap_cons]
        simp only [structuralErrorOf, hclean]⟩
    | some s =>
      dsimp only
      by_cases hct : isCreateTableStatement s = true
      · rw [if_pos hct]
        cases hparse : parseCreateTableRegex s options with
        | error e =>
          dsimp only
          rw [if_pos h]
          obtain ⟨r, hr, he⟩ := ih { result with Errors := result.Errors ++ [e] }
          refine ⟨r, hr, ?_⟩
          rw [he, List.filterMap_cons]
          have hse : structuralErrorOf options stmt = some e := by
            simp only [structuralErrorOf, hclean]
            rw [if_pos hct, hparse]
          rw [hse]
          simp
        | ok table =>
          dsimp only
          obtain ⟨r, hr, he⟩ := ih { result with Tables := result.Tables ++ [table] }
          refine ⟨r, hr, ?_⟩
          rw [he, List.filterMap_cons]
          have hse : structuralErrorOf options stmt = none := by
            simp only [structuralErrorOf, hclean]
            rw [if_pos hct, hparse]
          rw [hse]
      · rw [if_neg hct]
        obtain ⟨r, hr, he⟩ := ih result
        refine ⟨r, hr, ?_⟩
        rw [he, List.filterMap_cons]
        have hse : structuralErrorOf options stmt = none := by
          simp only [structuralErrorOf, hclean]
          rw [if_neg hct]
        rw [hse]

/-- C2 counterexample: the clause `???` of
`CREATE TABLE t (x INT, ???);` fails the column parser, and under lenient
mode the clause is skipped but NO diagnostic is recorded: the parse result
has one table, one column and an empty error list, contradicting the claim
that every clause parse error is recorded in the ParseResult's error
list. -/
theorem parseSQL_clause_error_unrecorded_cex :
    (∃ e, parseColumnRegex "???" ⟨false, true⟩ = Except.error e) ∧
      ParseSQL "CREATE TABLE t (x INT, ???);" ⟨false, true⟩ =
        Except.ok { Tables := [{ Name := "t", Columns := [{ Name := "x", «Type» := "INT" }] }],
                    Errors := [] } :=
  ⟨⟨_, rfl⟩, rfl⟩

/-- C2 amended: under lenient mode, parsing always continues and returns a
result; the diagnostics attached to the ParseResult are exactly the
structural parse errors (recognized CREATE TABLE statements whose name or
body extraction, i.e. `parseCreateTableRegex`, fails), with the offending
statement skipped; clause parse errors (a column or constraint clause of an
unexpected shape) cause only the clause to be skipped and are NOT recorded
— the body parser never fails in lenient mode, so no clause-level
diagnostic can reach the error list. -/
theorem parseSQL_lenient_error_policy (content : String) (options : ParseOptions)
    (h : options.IgnoreUnsupported = true) :
    (∃ r, ParseSQL content options = Except.ok r ∧
      r.Errors = (splitStatements content).filterMap (structuralErrorOf options)) ∧
    (∀ (table : Table) (body : String), ∃ t2, parseTableBody table body options = Except.ok t2) := by
  constructor
  · obtain ⟨r, hr, he⟩ := parseStatements_lenient_errors options h (splitStatements content)
      { Tables := [], Errors := [] }
    exact ⟨r, hr, by rw [he]; simp⟩
  · intro table body
    exact parseTableBody_lenient table body options h

/-- Witness for the amended C2 theorem: one structurally broken statement
(no extractable table name) and one statement with a failing clause. -/
theorem parseSQL_lenient_error_policy_witness :
    (⟨false, true⟩ : ParseOptions).IgnoreUnsupported = true ∧
    ((∃ r, ParseSQL "CREATE TABLE ??? (x INT);\nCREATE TABLE t (x INT, ???);" ⟨false, true⟩ =
        Except.ok r ∧
      r.Errors = (splitStatements
        "CREATE TABLE ??? (x INT);\nCREATE TABLE t (x INT, ???);").filterMap
          (structuralErrorOf ⟨false, true⟩)) ∧
    (∀ (table : Table) (body : String),
      ∃ t2, parseTableBody table body ⟨false, true⟩ = Except.ok t2)) :=
  ⟨rfl, parseSQL_lenient_error_policy "CREATE TABLE ??? (x INT);\nCREATE TABLE t (x INT, ???);"
    ⟨false, true⟩ rfl⟩

theorem parseStatements_no_create (options : ParseOptions) :
    ∀ (stmts : List String) (result : ParseResult),
      (stmts.all (fun stmt =>
        match cleanStatement stmt with
        | none => true
        | some s => !isCreateTableStatement s)) = true →
      parseStatements options stmts result = Except.ok result := by
  intro stmts
  induction stmts with
  | nil => intro result _; rfl
  | cons stmt rest ih =>
    intro result hall
    rw [List.all_cons, Bool.and_eq_true] at hall
    simp only [parseStatements]
    cases hclean : cleanStatement stmt with
    | none => exact ih result hall.2
    | some s =>
      dsimp only
      have hcs : isCreateTableStatement s = false := by
        have h1 := hall.1
        rw [hclean] at h1
        simpa using h1
      rw [if_neg (by rw [hcs]; exact Bool.false_ne_true)]
      exact ih result hall.2

/-- C10: with `IgnoreUnsupported` set, `ParseSQL` never returns a non-nil
top-level error — every failure is skipped or becomes a recorded
diagnostic, and a result value is always produced; and input containing no
CREATE TABLE statement yields an empty table list, an empty error list and
a nil error. -/
theorem parseSQL_lenient_never_errors (content : String) (options : ParseOptions)
    (h : options.IgnoreUnsupported = true) :
    (∃ r, ParseSQL content options = Except.ok r) ∧
    (((splitStatements content).all (fun stmt =>
        match cleanStatement stmt with
        | none => true
        | some s => !isCreateTableStatement s)) = true →
      ParseSQL content options = Except.ok { Tables := [], Errors := [] }) := by
  constructor
  · obtain ⟨r, hr, -⟩ := parseStatements_lenient_errors options h (splitStatements content)
      { Tables := [], Errors := [] }
    exact ⟨r, hr⟩
  · intro hall
    exact parseStatements_no_create options (splitStatements content)
      { Tables := [], Errors := [] } hall

/-- Witness for C10 on input with no CREATE TABLE statement. -/
theorem parseSQL_lenient_never_errors_witness :
    (⟨false, true⟩ : ParseOptions).IgnoreUnsupported = true ∧
    (∃ r, ParseSQL "SELECT 1;\n-- just a comment" ⟨false, true⟩ = Except.ok r) ∧
    ParseSQL "SELECT 1;\n-- just a comment" ⟨false, true⟩ =
      Except.ok { Tables := [], Errors := [] } := by
  refine ⟨rfl, ?_, ?_⟩
  · exact (parseSQL_lenient_never_errors "SELECT 1;\n-- just a comment" ⟨false, true⟩ rfl).1
  · exact (parseSQL_lenient_never_errors "SELECT 1;\n-- just a comment" ⟨false, true⟩ rfl).2
      (by decide)

/-! ### Balanced-parenthesis body extraction (C6)

The claim's premise speaks of a CREATE TABLE statement whose parenthesized
body has balanced nested parentheses; `balancedParens` captures that
premise (it is a claim-side notion, not code of the repository).  The
greedy `(.*)` of `bodyRegex` takes everything up to the closing
parenthesis before the statement terminator, so on such a statement the
captured body is the full span from the first opening parenthesis to its
balanced closing one — in particular it is not truncated at the first
closing parenthesis of a nested group such as `DECIMAL(10,2)`. -/

/-- Depth scan for parenthesis balance: the depth never goes negative and
ends at zero. -/
def parenDepthOk : List Char → Nat → Bool
  | [], d => d = 0
  | c :: cs, d =>
    if c = '(' then parenDepthOk cs (d + 1)
    else if c = ')' then
      match d with
      | 0 => false
      | e + 1 => parenDepthOk cs e
    else parenDepthOk cs d

/-- A character list whose parentheses are balanced (claim-side premise
of C6). -/
def balancedParens (cs : List Char) : Bool := parenDepthOk cs 0

lemma wordChar_goSpace (c : Char) (h : wordChar c = true) : goSpace c = false := by
  cases hg : goSpace c
  · rfl
  · simp only [goSpace, Bool.or_eq_true, decide_eq_true_eq] at hg
    rcases hg with ((((rfl | rfl) | rfl) | rfl) | rfl) <;> exact absurd h (by decide)

lemma tw_append_all (p : Char → Bool) (l : List Char) (c : Char) (r : List Char)
    (hl : ∀ x ∈ l, p x = true) (hc : p c = false) :
    (l ++ c :: r).takeWhile p = l := by
  induction l with
  | nil => simp [List.takeWhile_cons, hc]
  | cons a t ih =>
    have ha : p a = true := hl a (List.mem_cons_self a t)
    simp only [List.cons_append, List.takeWhile_cons, ha, if_true]
    rw [ih (fun x hx => hl x (List.mem_cons_of_mem a hx))]

lemma dw_append_all (p : Char → Bool) (l : List Char) (c : Char) (r : List Char)
    (hl : ∀ x ∈ l, p x = true) (hc : p c = false) :
    (l ++ c :: r).dropWhile p = c :: r := by
  induction l with
  | nil => simp [List.dropWhile_cons, hc]
  | cons a t ih =>
    have ha : p a = true := hl a (List.mem_cons_self a t)
    simp only [List.cons_append, List.dropWhile_cons, ha, if_true]
    exact ih (fun x hx => hl x (List.mem_cons_of_mem a hx))

lemma matchCIc_CREATE (t : List Char) :
    matchCIc "CREATE".data ('C' :: 'R' :: 'E' :: 'A' :: 'T' :: 'E' :: t) =
      some (['C', 'R', 'E', 'A', 'T', 'E'], t) := by
  rfl

lemma matchCIc_TABLE (t : List Char) :
    matchCIc "TABLE".data ('T' :: 'A' :: 'B' :: 'L' :: 'E' :: t) =
      some (['T', 'A', 'B', 'L', 'E'], t) := by
  rfl

lemma spaces1c_single (c : Char) (t : List Char) (hc : goSpace c = false) :
    spaces1c (' ' :: c :: t) = some ([' '], c :: t) := by
  simp only [spaces1c]
  rw [if_pos (by decide : goSpace ' ' = true)]
  simp [List.takeWhile_cons, List.dropWhile_cons, hc]

lemma munchWordc_construct (nm : List Char) (c : Char) (r : List Char) (hn : nm ≠ [])
    (hw : ∀ x ∈ nm, wordChar x = true) (hc : wordChar c = false) :
    munchWordc (nm ++ c :: r) = some (nm, c :: r) := by
  simp only [munchWordc]
  rw [tw_append_all wordChar nm c r hw hc, dw_append_all wordChar nm c r hw hc]
  rw [if_neg hn]

lemma matchCreateAt_construct (n0 : Char) (nt rest : List Char)
    (hw : ∀ x ∈ n0 :: nt, wordChar x = true) :
    matchCreateAt ('C' :: 'R' :: 'E' :: 'A' :: 'T' :: 'E' :: ' ' :: 'T' :: 'A' :: 'B' ::
        'L' :: 'E' :: ' ' :: n0 :: (nt ++ ' ' :: '(' :: rest)) = some (n0 :: nt, rest) := by
  have h0 : goSpace n0 = false := wordChar_goSpace n0 (hw n0 (List.mem_cons_self n0 nt))
  simp only [matchCreateAt]
  rw [matchCIc_CREATE]
  dsimp only
  rw [spaces1c_single 'T' _ (by decide)]
  dsimp only
  rw [matchCIc_TABLE]
  dsimp only
  rw [spaces1c_single n0 _ h0]
  dsimp only
  rw [← List.cons_append]
  rw [munchWordc_construct (n0 :: nt) ' ' ('(' :: rest) (List.cons_ne_nil n0 nt) hw (by decide)]
  dsimp only
  rw [show (' ' :: '(' :: rest).dropWhile goSpace = '(' :: rest from by
    simp +decide [List.dropWhile_cons]]
  rfl

lemma findCreate_construct (n0 : Char) (nt rest : List Char)
    (hw : ∀ x ∈ n0 :: nt, wordChar x = true) :
    findCreate ('C' :: 'R' :: 'E' :: 'A' :: 'T' :: 'E' :: ' ' :: 'T' :: 'A' :: 'B' ::
        'L' :: 'E' :: ' ' :: n0 :: (nt ++ ' ' :: '(' :: rest)) = some (n0 :: nt, rest) := by
  simp only [findCreate]
  rw [matchCreateAt_construct n0 nt rest hw]

lemma bodyFromRest_construct (b : List Char) :
    bodyFromRest (b ++ [')', ';']) = some b := by
  have h1 : bodyFromRest (b ++ [')', ';']) = some b.reverse.reverse := by
    simp only [bodyFromRest]
    rw [show (b ++ [')', ';']).reverse = ';' :: ')' :: b.reverse from by simp]
    rw [show (';' :: ')' :: b.reverse).dropWhile goSpace = ';' :: ')' :: b.reverse from by
      simp +decide [List.dropWhile_cons]]
    rfl
  rw [h1, List.reverse_reverse]

/-- C6: for a CREATE TABLE statement built from a word-character table
name and a parenthesized body whose nested parentheses are balanced, the
extractor captures the table name and the FULL body — the span from the
first opening parenthesis to its balanced closing parenthesis, not the
text truncated at the first closing parenthesis of a nested group such as
DECIMAL(10,2); and whenever the name or the body cannot be extracted,
`parseCreateTableRegex` returns a structured parse error instead of a
table. -/
theorem parseCreateTableRegex_body_extraction (name body : String)
    (hn : name.data ≠ []) (hw : ∀ c ∈ name.data, wordChar c = true)
    (hb : balancedParens body.data = true) :
    (extractTableName ("CREATE TABLE " ++ name ++ " (" ++ body ++ ");") = some name ∧
     extractTableBody ("CREATE TABLE " ++ name ++ " (" ++ body ++ ");") = some body) ∧
    (∀ (stmt : String) (options : ParseOptions),
      extractTableName stmt = none ∨ extractTableBody stmt = none →
      ∃ e, parseCreateTableRegex stmt options = Except.error e) := by
  refine ⟨?_, ?_⟩
  · obtain ⟨n0, nt, hnm⟩ : ∃ c t, name.data = c :: t := by
      cases hx : name.data with
      | nil => exact absurd hx hn
      | cons a b => exact ⟨a, b, rfl⟩
    rw [hnm] at hw
    have hdata : ("CREATE TABLE " ++ name ++ " (" ++ body ++ ");").data =
        'C' :: 'R' :: 'E' :: 'A' :: 'T' :: 'E' :: ' ' :: 'T' :: 'A' :: 'B' :: 'L' :: 'E' ::
          ' ' :: (name.data ++ ' ' :: '(' :: (body.data ++ [')', ';'])) := by
      have h1 : ("CREATE TABLE " ++ name ++ " (" ++ body ++ ");").data =
          "CREATE TABLE ".data ++ (name.data ++ (" (".data ++ (body.data ++ ");".data))) := by
        simp [String.data_append, List.append_assoc]
      have h2 : "CREATE TABLE ".data ++ (name.data ++ (" (".data ++ (body.data ++ ");".data))) =
          'C' :: 'R' :: 'E' :: 'A' :: 'T' :: 'E' :: ' ' :: 'T' :: 'A' :: 'B' :: 'L' :: 'E' ::
            ' ' :: (name.data ++ ' ' :: '(' :: (body.data ++ [')', ';'])) := rfl
      exact h1.trans h2
    have hfc : findCreate (("CREATE TABLE " ++ name ++ " (" ++ body ++ ");").data) =
        some (name.data, body.data ++ [')', ';']) := by
      rw [hdata, hnm, List.cons_append]
      exact findCreate_construct n0 nt (body.data ++ [')', ';']) hw
    refine ⟨?_, ?_⟩
    · simp only [extractTableName]
      rw [hfc]
      dsimp only [Option.map]
    · simp only [extractTableBody]
      rw [hfc]
      dsimp only
      rw [bodyFromRest_construct body.data]
  · intro stmt options h
    cases hname : extractTableName stmt with
    | none =>
      refine ⟨"could not extract table name from statement", ?_⟩
      simp only [parseCreateTableRegex]
      rw [hname]
    | some nm =>
      cases hbody : extractTableBody stmt with
      | none =>
        refine ⟨"could not extract table body from statement", ?_⟩
        simp only [parseCreateTableRegex]
        rw [hname, hbody]
      | some tb =>
        rcases h with h | h
        · rw [hname] at h
          exact absurd h (by simp)
        · rw [hbody] at h
          exact absurd h (by simp)

/-- Witness for C6 at a DECIMAL(10,2) column: the captured body is the
full balanced span, not the text up to the first closing parenthesis. -/
theorem parseCreateTableRegex_body_extraction_witness :
    (("orders" : String).data ≠ [] ∧ (∀ c ∈ ("orders" : String).data, wordChar c = true) ∧
      balancedParens ("price DECIMAL(10,2)" : String).data = true) ∧
    extractTableName ("CREATE TABLE " ++ "orders" ++ " (" ++ "price DECIMAL(10,2)" ++ ");") =
      some "orders" ∧
    extractTableBody ("CREATE TABLE " ++ "orders" ++ " (" ++ "price DECIMAL(10,2)" ++ ");") =
      some "price DECIMAL(10,2)" := by
  have h := parseCreateTableRegex_body_extraction "orders" "price DECIMAL(10,2)"
    (by decide) (by decide) (by decide)
  exact ⟨⟨by decide, by decide, by decide⟩, h.1.1, h.1.2⟩

end Drizzle
